import Mathlib

set_option maxRecDepth 8000

/-!
Verification of the transaction codec and state-proof verifier of the
aeternity JavaScript SDK.  The byte encoding layer, transaction codec and
Merkle-Patricia-Trie proof verifier themselves are not shipped under `src/`
(only tests, documentation and the nested-transaction field module are), so
those parts are modelled from the specification; the nested-transaction
field codec (`genEntryField`) is embedded from the source.
-/

/-- Shallow embedding of the SDK error hierarchy: the documentation under
`src` lists `CryptographyError` (`InvalidChecksumError`,
`MerkleTreeHashMismatchError`, `MissingNodeInTreeError`,
`UnknownNodeLengthError`, `UnknownPathNibbleError`) and `TransactionError`
(`DecodeError`, `EncodeError`, `PayloadLengthError`, `PrefixNotFoundError`,
`SchemaNotFoundError`, `TagNotFoundError`, `UnknownTxError`, ...) along with
the flat `ArgumentError`/`IllegalArgumentError`/`MissingParamError` family.
Only the variants reachable from the codec core are modelled. -/
inductive Err where
  | decodeErr
  | encodeErr
  | payloadLength
  | tagNotFound
  | schemaNotFound
  | unknownTx
  | argumentTag (expected actual : Nat)
  | argumentIdKind (k : Nat)
  | argumentTtlType (d : Nat)
  | argumentLength
  | invalidChecksum
  | pfxNotFound
  | missingParam
  | invalidTxParams
  | merkleTreeHashMismatch
  | missingNodeInTree
  | unknownNodeLength
  | unknownPathNibble
  deriving DecidableEq

/-- Fuel-driven little-endian digit expansion; agrees with `Nat.digits` when
the fuel dominates the value, and reduces inside the kernel. -/
def digAux (base : Nat) : Nat → Nat → List Nat
  | 0, _ => []
  | fuel + 1, n => if n = 0 then [] else n % base :: digAux base fuel (n / base)

/-- Minimal big-endian byte expansion of a natural number; the empty list
encodes zero (the integer convention of the byte encoding layer). -/
def natBytes (n : Nat) : List Nat :=
  (digAux 256 (n + 1) n).reverse

/-- Big-endian byte-list to natural number. -/
def bytesToNat (bs : List Nat) : Nat :=
  bs.foldl (fun acc b => acc * 256 + b) 0

theorem digAux_eq_digits (base : Nat) (hb : 2 ≤ base) :
    ∀ fuel n, n < base ^ fuel → digAux base fuel n = Nat.digits base n
  | 0, n, h => by
      have hn : n = 0 := by simpa using h
      simp [digAux, hn]
  | fuel + 1, n, h => by
      by_cases hn : n = 0
      · simp [digAux, hn]
      · have hdiv : n / base < base ^ fuel := by
          rw [Nat.div_lt_iff_lt_mul (by omega)]
          calc n < base ^ (fuel + 1) := h
            _ = base ^ fuel * base := by ring
        rw [digAux, if_neg hn, digAux_eq_digits base hb fuel (n / base) hdiv,
          Nat.digits_def' (by omega : 1 < base) (by omega : 0 < n)]

theorem natBytes_eq_digits (n : Nat) : natBytes n = (Nat.digits 256 n).reverse := by
  unfold natBytes
  rw [digAux_eq_digits 256 (by norm_num) (n + 1) n]
  calc n < 256 ^ n := Nat.lt_pow_self (by norm_num) n
    _ ≤ 256 ^ (n + 1) := Nat.pow_le_pow_right (by norm_num) (by omega)

theorem bytesToNat_aux (bs : List Nat) :
    ∀ acc, bs.foldl (fun a b => a * 256 + b) acc = acc * 256 ^ bs.length + bytesToNat bs := by
  induction bs with
  | nil => intro acc; simp [bytesToNat]
  | cons c t ih =>
      intro acc
      have h1 : bytesToNat (c :: t) = c * 256 ^ t.length + bytesToNat t := by
        show List.foldl _ (0 * 256 + c) t = _
        rw [ih (0 * 256 + c)]; ring_nf
      simp only [List.foldl_cons, List.length_cons, h1, ih (acc * 256 + c)]
      ring

theorem bytesToNat_eq_ofDigits (bs : List Nat) :
    bytesToNat bs = Nat.ofDigits 256 bs.reverse := by
  induction bs with
  | nil => simp [bytesToNat, Nat.ofDigits]
  | cons c t ih =>
      have h1 : bytesToNat (c :: t) = c * 256 ^ t.length + bytesToNat t := by
        show List.foldl _ (0 * 256 + c) t = _
        rw [bytesToNat_aux t (0 * 256 + c)]; ring_nf
      rw [h1, ih]
      rw [List.reverse_cons, Nat.ofDigits_append]
      simp [Nat.ofDigits, List.length_reverse]
      ring

theorem bytesToNat_natBytes (n : Nat) : bytesToNat (natBytes n) = n := by
  rw [bytesToNat_eq_ofDigits, natBytes_eq_digits, List.reverse_reverse,
    Nat.ofDigits_digits]

theorem natBytes_bytesToNat (bs : List Nat) (hhd : bs.head? ≠ some 0)
    (hlt : ∀ x ∈ bs, x < 256) : natBytes (bytesToNat bs) = bs := by
  rw [bytesToNat_eq_ofDigits, natBytes_eq_digits]
  rw [Nat.digits_ofDigits 256 (by norm_num) bs.reverse
    (fun l hl => hlt l (List.mem_reverse.mp hl))]
  · exact List.reverse_reverse bs
  · intro h hz
    have h1 : bs.reverse.getLast? = some 0 := by
      rw [List.getLast?_eq_getLast _ h, hz]
    rw [List.getLast?_reverse] at h1
    exact hhd h1

theorem natBytes_zero : natBytes 0 = [] := by
  rw [natBytes_eq_digits]; simp

theorem natBytes_head_ne_zero (n : Nat) : (natBytes n).head? ≠ some 0 := by
  rw [natBytes_eq_digits]
  by_cases hn : n = 0
  · simp [hn]
  · intro h
    have hne : Nat.digits 256 n ≠ [] := Nat.digits_ne_nil_iff_ne_zero.mpr hn
    rw [List.head?_reverse, List.getLast?_eq_getLast _ hne] at h
    have h2 := Nat.getLast_digit_ne_zero 256 hn
    simp at h
    exact h2 h

theorem natBytes_ne_nil (n : Nat) (hn : n ≠ 0) : natBytes n ≠ [] := by
  rw [natBytes_eq_digits]
  simpa using Nat.digits_ne_nil_iff_ne_zero.mpr hn

theorem natBytes_all_lt (n : Nat) : ∀ x ∈ natBytes n, x < 256 := by
  rw [natBytes_eq_digits]
  intro x hx
  exact Nat.digits_lt_base (by norm_num) (List.mem_reverse.mp hx)

theorem natBytes_len_le (n k : Nat) (h : n < 256 ^ k) : (natBytes n).length ≤ k := by
  rw [natBytes_eq_digits, List.length_reverse]
  by_cases hn : n = 0
  · simp [hn]
  · by_contra hlen
    push_neg at hlen
    have h1 : 256 ^ (Nat.digits 256 n).length ≤ 256 * n :=
      Nat.base_pow_length_digits_le 256 n (by norm_num) hn
    have h2 : 256 ^ (k + 1) ≤ 256 ^ (Nat.digits 256 n).length :=
      Nat.pow_le_pow_right (by norm_num) hlen
    have h3 : 256 ^ k ≤ n := by
      have : 256 * 256 ^ k ≤ 256 * n := by
        calc 256 * 256 ^ k = 256 ^ (k + 1) := by ring
          _ ≤ 256 ^ (Nat.digits 256 n).length := h2
          _ ≤ 256 * n := h1
      omega
    omega

mutual
/-- Modelled from the spec: the byte encoding layer (RLP-style canonical
length-prefixed recursive encoding) is not under `src/`; an item is a byte
string or an ordered sequence of items. -/
inductive RLPItem where
  | bytes (bs : List Nat)
  | list (items : RLPSeq)
  deriving DecidableEq
/-- Sequence of RLP items (spelt out to keep recursion structural). -/
inductive RLPSeq where
  | nil
  | cons (hd : RLPItem) (tl : RLPSeq)
  deriving DecidableEq
end

/-- Length header of the byte encoding layer: lengths below 56 live in the
header byte itself, longer ones use a length-of-length header. -/
def lenHeader (base len : Nat) : List Nat :=
  if len < 56 then [base + len]
  else (base + 55 + (natBytes len).length) :: natBytes len

mutual
/-- Modelled from the spec: `encode` of the byte encoding layer.  A single
byte below 0x80 encodes itself; otherwise a string takes a header in the
0x80-0xbf range and a list a header in the 0xc0-0xff range, followed by the
payload. -/
def rlpEncode : RLPItem → List Nat
  | .bytes bs =>
      if bs.length = 1 ∧ bs.headD 0 < 128 then bs
      else lenHeader 128 bs.length ++ bs
  | .list items =>
      let p := rlpEncodeSeq items
      lenHeader 192 p.length ++ p
/-- Concatenated encodings of a sequence of items. -/
def rlpEncodeSeq : RLPSeq → List Nat
  | .nil => []
  | .cons h t => rlpEncode h ++ rlpEncodeSeq t
end

/-- Modelled from the spec: the decoder of the byte encoding layer.  With
mode `false` it decodes one item off the front and returns the remainder;
with mode `true` it decodes a whole payload as a sequence.  Every
non-minimal header (a length-of-length with leading zero or a long form
that a short form could express, a one-byte string that should be a bare
byte) fails with `DecodeError`; every header whose declared length exceeds
the available bytes fails with `PayloadLengthError`. -/
def decAux : Nat → Bool → List Nat → Except Err (RLPItem × List Nat)
  | _, true, [] => .ok (.list .nil, [])
  | 0, _, _ => .error .decodeErr
  | fuel + 1, true, bs => do
      let (it, rem) ← decAux fuel false bs
      let (rest, _) ← decAux fuel true rem
      match rest with
      | .list its => .ok (.list (.cons it its), [])
      | .bytes _ => .error .decodeErr
  | _ + 1, false, [] => .error .decodeErr
  | fuel + 1, false, b :: rest =>
      if b < 128 then .ok (.bytes [b], rest)
      else if b < 184 then
        let n := b - 128
        if n ≤ rest.length then
          if n = 1 ∧ rest.headD 0 < 128 then .error .decodeErr
          else .ok (.bytes (rest.take n), rest.drop n)
        else .error .payloadLength
      else if b < 192 then
        let ll := b - 183
        if ll ≤ rest.length then
          if (rest.take ll).headD 0 = 0 then .error .decodeErr
          else
            let n := bytesToNat (rest.take ll)
            if n < 56 then .error .decodeErr
            else if n ≤ (rest.drop ll).length then
              .ok (.bytes ((rest.drop ll).take n), (rest.drop ll).drop n)
            else .error .payloadLength
        else .error .payloadLength
      else if b < 248 then
        let n := b - 192
        if n ≤ rest.length then do
          let (out, _) ← decAux fuel true (rest.take n)
          .ok (out, rest.drop n)
        else .error .payloadLength
      else
        let ll := b - 247
        if ll ≤ rest.length then
          if (rest.take ll).headD 0 = 0 then .error .decodeErr
          else
            let n := bytesToNat (rest.take ll)
            if n < 56 then .error .decodeErr
            else if n ≤ (rest.drop ll).length then do
              let (out, _) ← decAux fuel true ((rest.drop ll).take n)
              .ok (out, (rest.drop ll).drop n)
            else .error .payloadLength
        else .error .payloadLength

/-- Modelled from the spec: `decode` of the byte encoding layer; trailing
bytes beyond the first item are a length mismatch. -/
def rlpDecode (bs : List Nat) : Except Err RLPItem :=
  match decAux (2 * bs.length + 2) false bs with
  | .ok (it, []) => .ok it
  | .ok (_, _ :: _) => .error .payloadLength
  | .error e => .error e

mutual
/-- All byte strings and list payloads of the item are below the 2^64 wire
limit of the length-of-length scheme. -/
def itemSizeOk : RLPItem → Bool
  | .bytes bs => decide (bs.length < 2 ^ 64)
  | .list its => seqSizeOk its && decide ((rlpEncodeSeq its).length < 2 ^ 64)
/-- `itemSizeOk` over a sequence. -/
def seqSizeOk : RLPSeq → Bool
  | .nil => true
  | .cons h t => itemSizeOk h && seqSizeOk t
end

example : rlpEncode (.bytes [5]) = [5] := rfl
example : rlpEncode (.bytes [200]) = [129, 200] := rfl
example : rlpEncode (.bytes []) = [128] := rfl
example : rlpEncode (.list (.cons (.bytes [5]) (.cons (.bytes [1, 2]) .nil))) =
    [196, 5, 130, 1, 2] := rfl
example : rlpDecode [196, 5, 130, 1, 2] =
    .ok (.list (.cons (.bytes [5]) (.cons (.bytes [1, 2]) .nil))) := rfl
example : rlpDecode [129, 5] = .error .decodeErr := rfl
example : rlpDecode [130, 1] = .error .payloadLength := rfl

theorem decAux_single (fuel : Nat) (b : Nat) (rest : List Nat) (h : b < 128) :
    decAux (fuel + 1) false (b :: rest) = .ok (.bytes [b], rest) := by
  simp [decAux, h]

theorem decAux_shortStr (fuel : Nat) (b : Nat) (rest : List Nat)
    (h1 : 128 ≤ b) (h2 : b < 184) (h3 : b - 128 ≤ rest.length)
    (h4 : ¬(b - 128 = 1 ∧ rest.headD 0 < 128)) :
    decAux (fuel + 1) false (b :: rest) =
      .ok (.bytes (rest.take (b - 128)), rest.drop (b - 128)) := by
  simp only [decAux]
  rw [if_neg (by omega), if_pos h2, if_pos h3, if_neg h4]

theorem decAux_shortStr_under (fuel : Nat) (b : Nat) (rest : List Nat)
    (h1 : 128 ≤ b) (h2 : b < 184) (h3 : ¬ b - 128 ≤ rest.length) :
    decAux (fuel + 1) false (b :: rest) = .error .payloadLength := by
  simp only [decAux]
  rw [if_neg (by omega), if_pos h2, if_neg h3]

theorem decAux_longStr (fuel : Nat) (b : Nat) (rest : List Nat)
    (h1 : 184 ≤ b) (h2 : b < 192) (h3 : b - 183 ≤ rest.length)
    (h4 : ¬(rest.take (b - 183)).headD 0 = 0)
    (h5 : ¬ bytesToNat (rest.take (b - 183)) < 56)
    (h6 : bytesToNat (rest.take (b - 183)) ≤ (rest.drop (b - 183)).length) :
    decAux (fuel + 1) false (b :: rest) =
      .ok (.bytes ((rest.drop (b - 183)).take (bytesToNat (rest.take (b - 183)))),
        (rest.drop (b - 183)).drop (bytesToNat (rest.take (b - 183)))) := by
  simp only [decAux]
  rw [if_neg (by omega), if_neg (by omega), if_pos h2, if_pos h3, if_neg h4,
    if_neg h5, if_pos h6]

theorem exceptBind_ok {α β : Type} (a : α) (f : α → Except Err β) :
    (Except.ok a : Except Err α) >>= f = f a := rfl

theorem decAux_shortList_ok (fuel : Nat) (b : Nat) (rest : List Nat)
    (out : RLPItem) (rem2 : List Nat)
    (h1 : 192 ≤ b) (h2 : b < 248) (h3 : b - 192 ≤ rest.length)
    (hin : decAux fuel true (rest.take (b - 192)) = .ok (out, rem2)) :
    decAux (fuel + 1) false (b :: rest) = .ok (out, rest.drop (b - 192)) := by
  simp only [decAux]
  rw [if_neg (by omega), if_neg (by omega), if_neg (by omega), if_pos h2, if_pos h3,
    hin]
  rfl

theorem decAux_longList_ok (fuel : Nat) (b : Nat) (rest : List Nat)
    (out : RLPItem) (rem2 : List Nat)
    (h1 : 248 ≤ b) (h3 : b - 247 ≤ rest.length)
    (h4 : ¬(rest.take (b - 247)).headD 0 = 0)
    (h5 : ¬ bytesToNat (rest.take (b - 247)) < 56)
    (h6 : bytesToNat (rest.take (b - 247)) ≤ (rest.drop (b - 247)).length)
    (hin : decAux fuel true
      ((rest.drop (b - 247)).take (bytesToNat (rest.take (b - 247)))) = .ok (out, rem2)) :
    decAux (fuel + 1) false (b :: rest) =
      .ok (out, (rest.drop (b - 247)).drop (bytesToNat (rest.take (b - 247)))) := by
  simp only [decAux]
  rw [if_neg (by omega), if_neg (by omega), if_neg (by omega), if_neg (by omega),
    if_pos h3, if_neg h4, if_neg h5, if_pos h6, hin]
  rfl

theorem decAux_seq_nil (fuel : Nat) :
    decAux fuel true [] = .ok (.list .nil, []) := by
  cases fuel <;> simp [decAux]

theorem decAux_seq_cons_ok (fuel : Nat) (b : Nat) (rest : List Nat)
    (it : RLPItem) (rem : List Nat) (its : RLPSeq) (rem2 : List Nat)
    (h1 : decAux fuel false (b :: rest) = .ok (it, rem))
    (h2 : decAux fuel true rem = .ok (.list its, rem2)) :
    decAux (fuel + 1) true (b :: rest) = .ok (.list (.cons it its), []) := by
  simp [decAux, h1, h2, exceptBind_ok]

theorem pow256_8 : (256 : Nat) ^ 8 = 2 ^ 64 := by norm_num

theorem natBytes_headD_ne_zero (n : Nat) (hn : n ≠ 0) :
    ¬ (natBytes n).headD 0 = 0 := by
  have h1 := natBytes_head_ne_zero n
  have h2 := natBytes_ne_nil n hn
  cases hbs : natBytes n with
  | nil => exact absurd hbs h2
  | cons a t =>
      rw [hbs] at h1
      simp at h1 ⊢
      exact h1

theorem lenHeader_short (base len : Nat) (h : len < 56) :
    lenHeader base len = [base + len] := by
  simp [lenHeader, h]

theorem lenHeader_long (base len : Nat) (h : ¬ len < 56) :
    lenHeader base len = (base + 55 + (natBytes len).length) :: natBytes len := by
  simp [lenHeader, h]

theorem rlpEncode_bytes_eq (bs : List Nat) (h : ¬(bs.length = 1 ∧ bs.headD 0 < 128)) :
    rlpEncode (.bytes bs) = lenHeader 128 bs.length ++ bs := by
  rw [rlpEncode, if_neg h]

theorem rlpEncode_bytes_single (b : Nat) (h : b < 128) :
    rlpEncode (.bytes [b]) = [b] := by
  rw [rlpEncode, if_pos (by simp [h])]

theorem rlpEncode_list_eq (its : RLPSeq) :
    rlpEncode (.list its) =
      lenHeader 192 (rlpEncodeSeq its).length ++ rlpEncodeSeq its := by
  rw [rlpEncode]

theorem rlpEncode_length_pos (it : RLPItem) : 0 < (rlpEncode it).length := by
  cases it with
  | bytes bs =>
      by_cases h : bs.length = 1 ∧ bs.headD 0 < 128
      · rw [rlpEncode, if_pos h]; omega
      · rw [rlpEncode_bytes_eq bs h]
        unfold lenHeader
        by_cases hs : bs.length < 56 <;> simp [hs]
  | list its =>
      rw [rlpEncode_list_eq]
      unfold lenHeader
      by_cases hs : (rlpEncodeSeq its).length < 56 <;> simp [hs]

theorem rlpEncode_bytes_length_ge (bs : List Nat) :
    bs.length ≤ (rlpEncode (.bytes bs)).length := by
  by_cases h : bs.length = 1 ∧ bs.headD 0 < 128
  · rw [rlpEncode, if_pos h]
  · rw [rlpEncode_bytes_eq bs h]
    simp

theorem rlpEncodeSeq_length (h : RLPItem) (t : RLPSeq) :
    (rlpEncodeSeq (.cons h t)).length =
      (rlpEncode h).length + (rlpEncodeSeq t).length := by
  rw [rlpEncodeSeq]
  simp

theorem decAux_roundtrip : ∀ fuel : Nat,
    (∀ it rest, itemSizeOk it = true → 2 * (rlpEncode it).length ≤ fuel →
      decAux fuel false (rlpEncode it ++ rest) = .ok (it, rest)) ∧
    (∀ s, seqSizeOk s = true → 2 * (rlpEncodeSeq s).length < fuel →
      decAux fuel true (rlpEncodeSeq s) = .ok (.list s, [])) := by
  intro fuel
  induction fuel with
  | zero =>
      constructor
      · intro it rest _ hlen
        have := rlpEncode_length_pos it
        omega
      · intro s _ hlen
        omega
  | succ F ih =>
      obtain ⟨ihP, ihQ⟩ := ih
      constructor
      · intro it rest hsz hlen
        cases it with
        | bytes bs =>
            by_cases hb : bs.length = 1 ∧ bs.headD 0 < 128
            · obtain ⟨a, rfl⟩ := List.length_eq_one.mp hb.1
              have ha : a < 128 := by simpa using hb.2
              rw [rlpEncode_bytes_single a ha, List.singleton_append]
              exact decAux_single F a rest ha
            · rw [rlpEncode_bytes_eq bs hb]
              by_cases hshort : bs.length < 56
              · rw [lenHeader_short 128 bs.length hshort, List.singleton_append,
                  List.cons_append]
                have hstep := decAux_shortStr F (128 + bs.length) (bs ++ rest)
                  (by omega) (by omega)
                  (by simp)
                  (by
                    rintro ⟨hl, hhd⟩
                    have hl' : bs.length = 1 := by omega
                    obtain ⟨a, rfl⟩ := List.length_eq_one.mp hl'
                    exact hb ⟨hl', by simpa using hhd⟩)
                rw [hstep]
                rw [show 128 + bs.length - 128 = bs.length from by omega,
                  List.take_left, List.drop_left]
              · have hsz' : bs.length < 2 ^ 64 := by
                  simpa [itemSizeOk] using hsz
                have hnz : bs.length ≠ 0 := by omega
                have hL1 : 1 ≤ (natBytes bs.length).length :=
                  List.length_pos.mpr (natBytes_ne_nil _ hnz)
                have hL8 : (natBytes bs.length).length ≤ 8 :=
                  natBytes_len_le _ 8 (by rw [pow256_8]; exact hsz')
                rw [lenHeader_long 128 bs.length hshort]
                simp only [List.cons_append, List.append_assoc]
                have hb183 : 128 + 55 + (natBytes bs.length).length - 183 =
                    (natBytes bs.length).length := by omega
                have hbt : (natBytes bs.length ++ (bs ++ rest)).take
                    (128 + 55 + (natBytes bs.length).length - 183) =
                    natBytes bs.length := by
                  rw [hb183]; exact List.take_left _ _
                have hdr : (natBytes bs.length ++ (bs ++ rest)).drop
                    (128 + 55 + (natBytes bs.length).length - 183) = bs ++ rest := by
                  rw [hb183]; exact List.drop_left _ _
                have hstep := decAux_longStr F (128 + 55 + (natBytes bs.length).length)
                  (natBytes bs.length ++ (bs ++ rest))
                  (by omega) (by omega)
                  (by simp)
                  (by rw [hbt]; exact natBytes_headD_ne_zero _ hnz)
                  (by rw [hbt, bytesToNat_natBytes]; omega)
                  (by rw [hbt, hdr, bytesToNat_natBytes]; simp)
                rw [hstep, hbt, hdr, bytesToNat_natBytes, List.take_left,
                  List.drop_left]
        | list its =>
            simp only [itemSizeOk, Bool.and_eq_true, decide_eq_true_eq] at hsz
            obtain ⟨hsq, hplt⟩ := hsz
            rw [rlpEncode_list_eq] at hlen ⊢
            by_cases hshort : (rlpEncodeSeq its).length < 56
            · rw [lenHeader_short 192 _ hshort] at hlen
              simp only [List.singleton_append, List.length_cons,
                List.length_append] at hlen
              rw [lenHeader_short 192 _ hshort, List.singleton_append,
                List.cons_append]
              have harith : 192 + (rlpEncodeSeq its).length - 192 =
                  (rlpEncodeSeq its).length := by omega
              have hstep := decAux_shortList_ok F (192 + (rlpEncodeSeq its).length)
                (rlpEncodeSeq its ++ rest) (.list its) []
                (by omega) (by omega) (by simp)
                (by
                  rw [harith, List.take_left]
                  exact ihQ its hsq (by omega))
              rw [hstep, harith, List.drop_left]
            · have hnz : (rlpEncodeSeq its).length ≠ 0 := by omega
              have hL1 : 1 ≤ (natBytes (rlpEncodeSeq its).length).length :=
                List.length_pos.mpr (natBytes_ne_nil _ hnz)
              have hL8 : (natBytes (rlpEncodeSeq its).length).length ≤ 8 :=
                natBytes_len_le _ 8 (by rw [pow256_8]; exact hplt)
              rw [lenHeader_long 192 _ hshort] at hlen
              simp only [List.cons_append, List.length_cons,
                List.length_append] at hlen
              rw [lenHeader_long 192 _ hshort]
              simp only [List.cons_append, List.append_assoc]
              have hb247 : 192 + 55 + (natBytes (rlpEncodeSeq its).length).length - 247 =
                  (natBytes (rlpEncodeSeq its).length).length := by omega
              have hbt : ((natBytes (rlpEncodeSeq its).length) ++
                  (rlpEncodeSeq its ++ rest)).take
                  (192 + 55 + (natBytes (rlpEncodeSeq its).length).length - 247) =
                  natBytes (rlpEncodeSeq its).length := by
                rw [hb247]; exact List.take_left _ _
              have hdr : ((natBytes (rlpEncodeSeq its).length) ++
                  (rlpEncodeSeq its ++ rest)).drop
                  (192 + 55 + (natBytes (rlpEncodeSeq its).length).length - 247) =
                  rlpEncodeSeq its ++ rest := by
                rw [hb247]; exact List.drop_left _ _
              have hstep := decAux_longList_ok F
                (192 + 55 + (natBytes (rlpEncodeSeq its).length).length)
                ((natBytes (rlpEncodeSeq its).length) ++ (rlpEncodeSeq its ++ rest))
                (.list its) []
                (by omega)
                (by simp)
                (by rw [hbt]; exact natBytes_headD_ne_zero _ hnz)
                (by rw [hbt, bytesToNat_natBytes]; omega)
                (by rw [hbt, hdr, bytesToNat_natBytes]; simp)
                (by
                  rw [hbt, hdr, bytesToNat_natBytes, List.take_left]
                  exact ihQ its hsq (by omega))
              rw [hstep, hbt, hdr, bytesToNat_natBytes, List.drop_left]
      · intro s hs hlen
        cases s with
        | nil =>
            rw [rlpEncodeSeq]
            exact decAux_seq_nil (F + 1)
        | cons h t =>
            simp only [seqSizeOk, Bool.and_eq_true] at hs
            have hel : 0 < (rlpEncode h).length := rlpEncode_length_pos h
            rw [rlpEncodeSeq_length] at hlen
            rw [rlpEncodeSeq]
            obtain ⟨b, bs', henc⟩ : ∃ b bs', rlpEncode h = b :: bs' := by
              cases hE : rlpEncode h with
              | nil => rw [hE] at hel; simp at hel
              | cons x y => exact ⟨x, y, rfl⟩
            rw [henc, List.cons_append]
            apply decAux_seq_cons_ok F b (bs' ++ rlpEncodeSeq t) h (rlpEncodeSeq t) t []
            · have hP := ihP h (rlpEncodeSeq t) hs.1 (by omega)
              rw [henc, List.cons_append] at hP
              exact hP
            · exact ihQ t hs.2 (by omega)

theorem rlpDecode_rlpEncode (it : RLPItem) (h : itemSizeOk it = true) :
    rlpDecode (rlpEncode it) = .ok it := by
  unfold rlpDecode
  have h1 := (decAux_roundtrip (2 * (rlpEncode it).length + 2)).1 it [] h (by omega)
  rw [List.append_nil] at h1
  rw [h1]

theorem exceptBind_err {α β : Type} (e : Err) (f : α → Except Err β) :
    (Except.error e : Except Err α) >>= f = .error e := rfl

theorem take_one_headD (l : List Nat) : (l.take 1).headD 0 = l.headD 0 := by
  cases l <;> rfl

theorem headD_ne_zero_head? (l : List Nat) (hne : l ≠ []) (h : ¬ l.headD 0 = 0) :
    l.head? ≠ some 0 := by
  cases l with
  | nil => simp at hne
  | cons a t => simpa using h

theorem decAux_canonical : ∀ fuel bs, (∀ x ∈ bs, x < 256) →
    (∀ it rem, decAux fuel false bs = .ok (it, rem) → rlpEncode it ++ rem = bs) ∧
    (∀ out rem, decAux fuel true bs = .ok (out, rem) →
      ∃ s, out = .list s ∧ rem = [] ∧ rlpEncodeSeq s = bs) := by
  intro fuel
  induction fuel with
  | zero =>
      intro bs hbl
      constructor
      · intro it rem hdec
        cases bs <;> simp [decAux] at hdec
      · intro out rem hdec
        cases bs with
        | nil =>
            simp [decAux] at hdec
            exact ⟨.nil, hdec.1.symm, hdec.2, rfl⟩
        | cons b rest => simp [decAux] at hdec
  | succ F ih =>
      intro bs hbl
      constructor
      · intro it rem hdec
        cases bs with
        | nil => simp [decAux] at hdec
        | cons b rest =>
            by_cases hb1 : b < 128
            · rw [decAux_single F b rest hb1] at hdec
              simp at hdec
              rw [← hdec.1, ← hdec.2, rlpEncode_bytes_single b hb1]
              rfl
            · by_cases hb2 : b < 184
              · by_cases h3 : b - 128 ≤ rest.length
                · by_cases h4 : b - 128 = 1 ∧ rest.headD 0 < 128
                  · simp only [decAux] at hdec
                    rw [if_neg hb1, if_pos hb2, if_pos h3, if_pos h4] at hdec
                    exact Except.noConfusion hdec
                  · rw [decAux_shortStr F b rest (by omega) hb2 h3 h4] at hdec
                    simp at hdec
                    have hlen : (rest.take (b - 128)).length = b - 128 := by
                      rw [List.length_take, Nat.min_eq_left h3]
                    have hcond : ¬((rest.take (b - 128)).length = 1 ∧
                        (rest.take (b - 128)).headD 0 < 128) := by
                      rw [hlen]
                      rintro ⟨he1, he2⟩
                      rw [he1] at he2
                      rw [take_one_headD] at he2
                      exact h4 ⟨he1, he2⟩
                    rw [← hdec.1, ← hdec.2, rlpEncode_bytes_eq _ hcond, hlen,
                      lenHeader_short 128 _ (by omega),
                      show 128 + (b - 128) = b from by omega,
                      List.singleton_append, List.cons_append,
                      List.take_append_drop]
                · rw [decAux_shortStr_under F b rest (by omega) hb2 h3] at hdec
                  exact Except.noConfusion hdec
              · by_cases hb3 : b < 192
                · by_cases h3 : b - 183 ≤ rest.length
                  · by_cases h4 : (rest.take (b - 183)).headD 0 = 0
                    · simp only [decAux] at hdec
                      rw [if_neg hb1, if_neg hb2, if_pos hb3, if_pos h3,
                        if_pos h4] at hdec
                      exact Except.noConfusion hdec
                    · by_cases h5 : bytesToNat (rest.take (b - 183)) < 56
                      · simp only [decAux] at hdec
                        rw [if_neg hb1, if_neg hb2, if_pos hb3, if_pos h3,
                          if_neg h4, if_pos h5] at hdec
                        exact Except.noConfusion hdec
                      · by_cases h6 : bytesToNat (rest.take (b - 183)) ≤
                            (rest.drop (b - 183)).length
                        · rw [decAux_longStr F b rest (by omega) hb3 h3 h4 h5 h6] at hdec
                          simp at hdec
                          have hll : 1 ≤ b - 183 := by omega
                          have htk : rest.take (b - 183) ≠ [] := by
                            intro hcon
                            have := congrArg List.length hcon
                            rw [List.length_take, Nat.min_eq_left h3] at this
                            simp at this
                            omega
                          have hnb : natBytes (bytesToNat (rest.take (b - 183))) =
                              rest.take (b - 183) := by
                            apply natBytes_bytesToNat _ (headD_ne_zero_head? _ htk h4)
                            intro x hx
                            exact hbl x (List.mem_cons_of_mem b (List.mem_of_mem_take hx))
                          have hlen2 : ((rest.drop (b - 183)).take
                              (bytesToNat (rest.take (b - 183)))).length =
                              bytesToNat (rest.take (b - 183)) := by
                            rw [List.length_take, Nat.min_eq_left h6]
                          have hcond : ¬((((rest.drop (b - 183)).take
                              (bytesToNat (rest.take (b - 183)))).length = 1) ∧
                              (((rest.drop (b - 183)).take
                                (bytesToNat (rest.take (b - 183)))).headD 0 < 128)) := by
                            rw [hlen2]
                            rintro ⟨he1, _⟩
                            omega
                          rw [← hdec.1, ← hdec.2, rlpEncode_bytes_eq _ hcond, hlen2,
                            lenHeader_long 128 _ (by omega), hnb,
                            show 128 + 55 + (rest.take (b - 183)).length = b from by
                              rw [List.length_take, Nat.min_eq_left h3]; omega]
                          simp only [List.cons_append, List.append_assoc,
                            ← List.drop_drop, List.take_append_drop]
                        · simp only [decAux] at hdec
                          rw [if_neg hb1, if_neg hb2, if_pos hb3, if_pos h3,
                            if_neg h4, if_neg h5, if_neg h6] at hdec
                          exact Except.noConfusion hdec
                  · simp only [decAux] at hdec
                    rw [if_neg hb1, if_neg hb2, if_pos hb3, if_neg h3] at hdec
                    exact Except.noConfusion hdec
                · by_cases hb4 : b < 248
                  · by_cases h3 : b - 192 ≤ rest.length
                    · simp only [decAux] at hdec
                      rw [if_neg hb1, if_neg hb2, if_neg hb3, if_pos hb4,
                        if_pos h3] at hdec
                      cases hin : decAux F true (rest.take (b - 192)) with
                      | error e =>
                          rw [hin, exceptBind_err] at hdec
                          exact Except.noConfusion hdec
                      | ok pr =>
                          obtain ⟨out0, rem2⟩ := pr
                          rw [hin, exceptBind_ok] at hdec
                          simp at hdec
                          obtain ⟨s, rfl, -, hseq⟩ := (ih (rest.take (b - 192))
                            (fun x hx => hbl x (List.mem_cons_of_mem b
                              (List.mem_of_mem_take hx)))).2 out0 rem2 hin
                          rw [← hdec.1, ← hdec.2, rlpEncode_list_eq, hseq,
                            List.length_take, Nat.min_eq_left h3,
                            lenHeader_short 192 _ (by omega),
                            show 192 + (b - 192) = b from by omega,
                            List.singleton_append, List.cons_append,
                            List.take_append_drop]
                    · simp only [decAux] at hdec
                      rw [if_neg hb1, if_neg hb2, if_neg hb3, if_pos hb4,
                        if_neg h3] at hdec
                      exact Except.noConfusion hdec
                  · by_cases h3 : b - 247 ≤ rest.length
                    · by_cases h4 : (rest.take (b - 247)).headD 0 = 0
                      · simp only [decAux] at hdec
                        rw [if_neg hb1, if_neg hb2, if_neg hb3, if_neg hb4,
                          if_pos h3, if_pos h4] at hdec
                        exact Except.noConfusion hdec
                      · by_cases h5 : bytesToNat (rest.take (b - 247)) < 56
                        · simp only [decAux] at hdec
                          rw [if_neg hb1, if_neg hb2, if_neg hb3, if_neg hb4,
                            if_pos h3, if_neg h4, if_pos h5] at hdec
                          exact Except.noConfusion hdec
                        · by_cases h6 : bytesToNat (rest.take (b - 247)) ≤
                              (rest.drop (b - 247)).length
                          · simp only [decAux] at hdec
                            rw [if_neg hb1, if_neg hb2, if_neg hb3, if_neg hb4,
                              if_pos h3, if_neg h4, if_neg h5, if_pos h6] at hdec
                            cases hin : decAux F true ((rest.drop (b - 247)).take
                                (bytesToNat (rest.take (b - 247)))) with
                            | error e =>
                                rw [hin, exceptBind_err] at hdec
                                exact Except.noConfusion hdec
                            | ok pr =>
                                obtain ⟨out0, rem2⟩ := pr
                                rw [hin, exceptBind_ok] at hdec
                                simp at hdec
                                have hmemo : ∀ x ∈ (rest.drop (b - 247)).take
                                    (bytesToNat (rest.take (b - 247))), x < 256 := by
                                  intro x hx
                                  exact hbl x (List.mem_cons_of_mem b
                                    (List.mem_of_mem_drop (List.mem_of_mem_take hx)))
                                obtain ⟨s, rfl, -, hseq⟩ :=
                                  (ih _ hmemo).2 out0 rem2 hin
                                have hll : 1 ≤ b - 247 := by omega
                                have htk : rest.take (b - 247) ≠ [] := by
                                  intro hcon
                                  have := congrArg List.length hcon
                                  rw [List.length_take, Nat.min_eq_left h3] at this
                                  simp at this
                                  omega
                                have hnb : natBytes (bytesToNat (rest.take (b - 247))) =
                                    rest.take (b - 247) := by
                                  apply natBytes_bytesToNat _
                                    (headD_ne_zero_head? _ htk h4)
                                  intro x hx
                                  exact hbl x (List.mem_cons_of_mem b
                                    (List.mem_of_mem_take hx))
                                rw [← hdec.1, ← hdec.2, rlpEncode_list_eq, hseq,
                                  List.length_take, Nat.min_eq_left h6,
                                  lenHeader_long 192 _ (by omega), hnb,
                                  show 192 + 55 + (rest.take (b - 247)).length = b from by
                                    rw [List.length_take, Nat.min_eq_left h3]; omega]
                                simp only [List.cons_append, List.append_assoc,
                                  ← List.drop_drop, List.take_append_drop]
                          · simp only [decAux] at hdec
                            rw [if_neg hb1, if_neg hb2, if_neg hb3, if_neg hb4,
                              if_pos h3, if_neg h4, if_neg h5, if_neg h6] at hdec
                            exact Except.noConfusion hdec
                    · simp only [decAux] at hdec
                      rw [if_neg hb1, if_neg hb2, if_neg hb3, if_neg hb4,
                        if_neg h3] at hdec
                      exact Except.noConfusion hdec
      · intro out rem hdec
        cases bs with
        | nil =>
            rw [decAux_seq_nil] at hdec
            simp at hdec
            exact ⟨.nil, hdec.1.symm, hdec.2, rfl⟩
        | cons b rest =>
            simp only [decAux] at hdec
            cases hin1 : decAux F false (b :: rest) with
            | error e =>
                rw [hin1, exceptBind_err] at hdec
                exact Except.noConfusion hdec
            | ok pr1 =>
                obtain ⟨it0, rem0⟩ := pr1
                rw [hin1, exceptBind_ok] at hdec
                dsimp only at hdec
                have henc0 := (ih (b :: rest) hbl).1 it0 rem0 hin1
                have hrem0 : ∀ x ∈ rem0, x < 256 := by
                  intro x hx
                  exact hbl x (by rw [← henc0]; exact List.mem_append_right _ hx)
                cases hin2 : decAux F true rem0 with
                | error e =>
                    rw [hin2, exceptBind_err] at hdec
                    exact Except.noConfusion hdec
                | ok pr2 =>
                    obtain ⟨out1, rem2⟩ := pr2
                    rw [hin2, exceptBind_ok] at hdec
                    dsimp only at hdec
                    obtain ⟨s1, rfl, -, hseq1⟩ := (ih rem0 hrem0).2 out1 rem2 hin2
                    simp at hdec
                    refine ⟨.cons it0 s1, hdec.1.symm, hdec.2, ?_⟩
                    rw [rlpEncodeSeq, hseq1, henc0]

theorem lenHeader_length_pos (base len : Nat) : 1 ≤ (lenHeader base len).length := by
  unfold lenHeader
  split <;> simp

mutual
theorem encLen_itemSizeOk : ∀ it : RLPItem,
    (rlpEncode it).length < 2 ^ 64 → itemSizeOk it = true
  | .bytes bs => fun h => by
      simp only [itemSizeOk, decide_eq_true_eq]
      have := rlpEncode_bytes_length_ge bs
      omega
  | .list its => fun h => by
      have hp : (rlpEncodeSeq its).length < 2 ^ 64 := by
        rw [rlpEncode_list_eq, List.length_append] at h
        have := lenHeader_length_pos 192 (rlpEncodeSeq its).length
        omega
      simp only [itemSizeOk, Bool.and_eq_true, decide_eq_true_eq]
      exact ⟨encLen_seqSizeOk its hp, hp⟩
theorem encLen_seqSizeOk : ∀ s : RLPSeq,
    (rlpEncodeSeq s).length < 2 ^ 64 → seqSizeOk s = true
  | .nil => fun _ => rfl
  | .cons hd tl => fun h => by
      rw [rlpEncodeSeq_length] at h
      simp only [seqSizeOk, Bool.and_eq_true]
      exact ⟨encLen_itemSizeOk hd (by omega), encLen_seqSizeOk tl (by omega)⟩
end

theorem rlpDecode_canonical (bs : List Nat) (hbl : ∀ x ∈ bs, x < 256) (it : RLPItem)
    (h : rlpDecode bs = .ok it) : rlpEncode it = bs := by
  unfold rlpDecode at h
  cases hdec : decAux (2 * bs.length + 2) false bs with
  | error e =>
      rw [hdec] at h
      exact Except.noConfusion h
  | ok pr =>
      obtain ⟨it0, rem⟩ := pr
      rw [hdec] at h
      cases rem with
      | nil =>
          simp at h
          subst h
          have hc := (decAux_canonical (2 * bs.length + 2) bs hbl).1 it0 [] hdec
          simpa using hc
      | cons r rs => exact Except.noConfusion h

/-- Modelled from the spec: the field types of the Field Codec Registry —
unsigned integer (minimal bytes), fixed binary with the exact length
asserted, raw variable binary (no length assertion), binary identifier
constrained to an allowed kind subset, identifier set (an ordered list of
identifiers each constrained to an allowed kind subset), key-value pointer
list (ordered, order-preserving, not deduplicating), the nested
signed-transaction field of `genEntryField` with an optional fixed tag, the
time-to-live descriptor (absolute/relative discriminant plus a non-negative
value, encoded as a 2-field pair), and the opaque state-tree hash reference
that this layer does not interpret. -/
inductive FieldType where
  | uint
  | binFixed (len : Nat)
  | bin
  | idf (allowed : List Nat)
  | idList (allowed : List Nat)
  | pointers
  | nestedTx (tag : Option Nat)
  | ttl
  | stateTree
  deriving DecidableEq

mutual
/-- A typed field value of a transaction record. -/
inductive FieldVal where
  | uint (n : Nat)
  | bin (bs : List Nat)
  | idf (k : Nat) (payload : List Nat)
  | idList (ids : List (Nat × List Nat))
  | pointers (ps : List (List Nat × Nat × List Nat))
  | nested (t : TxRecord)
  | ttl (ttlType : Nat) (value : Nat)
  deriving DecidableEq
/-- Ordered field values (spelt out to keep recursion structural). -/
inductive FieldList where
  | nil
  | cons (f : FieldVal) (fs : FieldList)
  deriving DecidableEq
/-- A transaction record: kind tag, schema version and ordered field
values. -/
inductive TxRecord where
  | mk (tag : Nat) (version : Nat) (fields : FieldList)
  deriving DecidableEq
end

def TxRecord.tag : TxRecord → Nat
  | .mk t _ _ => t

def TxRecord.version : TxRecord → Nat
  | .mk _ v _ => v

def TxRecord.fields : TxRecord → FieldList
  | .mk _ _ fs => fs

/-- Modelled from the spec: a representative static transaction schema
registry — (kind tag, schema version, ordered field types).  Tag 11 is the
signature-wrapping SignedTx (raw signature then an embedded transaction),
tag 12 a transfer (SpendTx) in two schema versions (sender must be an
account identifier, kind 1; recipient may be an account or name identifier),
tag 80 a fee-paying wrapper that embeds a SignedTx with the nested field's
tag forced to 11, tag 24 a minimal two-field kind, tag 33 a naming-record
update (account identifier, a counter, a 32-byte name hash of asserted
exact length, a TTL descriptor, the key-value pointer list, an identifier
set whose members must be accounts or oracles, and a fee), and tag 60 the
proof-of-inclusion record (TreesPoi) carrying six opaque state-tree hash
references. -/
def txSchemas : List (Nat × Nat × List FieldType) :=
  [ (11, 1, [.bin, .nestedTx none]),
    (12, 1, [.idf [1], .idf [1, 2], .uint, .uint, .uint, .uint]),
    (12, 2, [.idf [1], .idf [1, 2], .uint, .uint, .uint, .uint, .bin]),
    (80, 1, [.idf [1], .uint, .uint, .nestedTx (some 11)]),
    (24, 1, [.uint, .bin]),
    (33, 1, [.idf [1], .uint, .binFixed 32, .ttl, .pointers, .idList [1, 4], .uint]),
    (60, 1, [.stateTree, .stateTree, .stateTree, .stateTree, .stateTree, .stateTree]) ]

/-- Modelled from the spec: schema resolution — an unknown (kind, version)
pair with a known kind fails with `SchemaNotFoundError`, an unknown kind
with `TagNotFoundError`. -/
def resolveSchemaE (tag ver : Nat) : Except Err (List FieldType) :=
  match txSchemas.find? (fun s => s.1 == tag && s.2.1 == ver) with
  | some s => .ok s.2.2
  | none =>
      if txSchemas.any (fun s => s.1 == tag) then .error .schemaNotFound
      else .error .tagNotFound

/-- The tag override performed by `genEntryField.serialize` in the source:
`{ ...txParams, ...tag != null && { tag } }` replaces the record's tag by
the field's fixed tag exactly when the latter is present. -/
def setTag : Option Nat → TxRecord → TxRecord
  | some e, .mk _ v fs => .mk e v fs
  | none, t => t

/-- Modelled from the spec: identifier-set field serialization — an ordered
list of binary identifiers, each individually constrained to the field's
allowed kind subset; a violation fails with `ArgumentError` naming the
offending entry's kind. -/
def serializeIdListE (allowed : List Nat) : List (Nat × List Nat) → Except Err RLPSeq
  | [] => .ok .nil
  | (k, p) :: rest =>
      if allowed.contains k then
        match serializeIdListE allowed rest with
        | .error e => .error e
        | .ok s => .ok (.cons (.bytes (k :: p)) s)
      else .error (.argumentIdKind k)

/-- Modelled from the spec: identifier-set field decoding — each element
must be a non-empty byte string whose kind byte lies in the allowed kind
subset, failing with `ArgumentError` naming the offending entry's kind. -/
def deserializeIdList (allowed : List Nat) : RLPSeq → Except Err (List (Nat × List Nat))
  | .nil => .ok []
  | .cons (.bytes (k :: p)) rest =>
      if allowed.contains k then
        match deserializeIdList allowed rest with
        | .error e => .error e
        | .ok ids => .ok ((k, p) :: ids)
      else .error (.argumentIdKind k)
  | .cons _ _ => .error .decodeErr

/-- Modelled from the spec: key-value pointer list serialization — each
{key, id} pair becomes a 2-element list (key bytes, then the identifier
with its kind byte); order is preserved and duplicate keys are NOT
deduplicated by this layer. -/
def serializePointersSeq : List (List Nat × Nat × List Nat) → RLPSeq
  | [] => .nil
  | (key, k, p) :: rest =>
      .cons (.list (.cons (.bytes key) (.cons (.bytes (k :: p)) .nil)))
        (serializePointersSeq rest)

/-- Modelled from the spec: key-value pointer list decoding — each element
must be a 2-element list of a key byte string and a non-empty identifier
byte string; order is preserved and duplicate keys are kept. -/
def deserializePointers : RLPSeq → Except Err (List (List Nat × Nat × List Nat))
  | .nil => .ok []
  | .cons (.list (.cons (.bytes key) (.cons (.bytes (k :: p)) .nil))) rest =>
      match deserializePointers rest with
      | .error e => .error e
      | .ok ps => .ok ((key, k, p) :: ps)
  | .cons _ _ => .error .decodeErr

mutual
/-- Modelled from the spec: the serializing half of the Transaction Codec —
resolve the schema, serialize fields in schema order, and place the kind tag
and schema version as the two leading encoded elements.  The `otag` argument
is the tag forced by a nested-transaction field (`none` at top level). -/
def serializeTxTagged : Option Nat → TxRecord → Except Err RLPItem
  | otag, .mk tag ver fields =>
      match resolveSchemaE (otag.getD tag) ver with
      | .error e => .error e
      | .ok ftys =>
          match serializeFields ftys fields with
          | .error e => .error e
          | .ok items =>
              .ok (.list (.cons (.bytes (natBytes (otag.getD tag)))
                (.cons (.bytes (natBytes ver)) items)))
/-- Serialize field values against schema field types positionally; a
missing required field fails with `MissingParamError`, surplus values with
`InvalidTxParamsError`. -/
def serializeFields : List FieldType → FieldList → Except Err RLPSeq
  | [], .nil => .ok .nil
  | _ :: _, .nil => .error .missingParam
  | [], .cons _ _ => .error .invalidTxParams
  | ft :: fts, .cons f fs =>
      match serializeField ft f with
      | .error e => .error e
      | .ok it =>
          match serializeFields fts fs with
          | .error e => .error e
          | .ok rest => .ok (.cons it rest)
/-- Serialize one field value: integers become minimal big-endian bytes,
fixed binary has its exact length asserted (`InvalidTxParamsError` on a
mismatch) while raw binary and state-tree references pass through
unchecked, identifiers carry their kind byte and must lie in the field's
allowed kind subset (`ArgumentError` otherwise), identifier sets constrain
every member the same way naming the offending entry, pointer lists become
order-preserving key/identifier pair lists without deduplication, a nested
transaction recursively invokes the Transaction Codec's build on the
embedded record with the field's fixed tag forced — any failure propagates
unchanged — and a TTL descriptor becomes a 2-field pair of discriminant
(absolute = 0 / relative = 1) and value. -/
def serializeField : FieldType → FieldVal → Except Err RLPItem
  | .uint, .uint n => .ok (.bytes (natBytes n))
  | .binFixed len, .bin bs =>
      if bs.length = len then .ok (.bytes bs) else .error .invalidTxParams
  | .bin, .bin bs => .ok (.bytes bs)
  | .stateTree, .bin bs => .ok (.bytes bs)
  | .idf allowed, .idf k p =>
      if allowed.contains k then .ok (.bytes (k :: p))
      else .error (.argumentIdKind k)
  | .idList allowed, .idList ids =>
      match serializeIdListE allowed ids with
      | .error e => .error e
      | .ok s => .ok (.list s)
  | .pointers, .pointers ps => .ok (.list (serializePointersSeq ps))
  | .nestedTx otag, .nested t =>
      match serializeTxTagged otag t with
      | .error e => .error e
      | .ok it => .ok (.bytes (rlpEncode it))
  | .ttl, .ttl d v =>
      if d < 2 then
        .ok (.list (.cons (.bytes (natBytes d)) (.cons (.bytes (natBytes v)) .nil)))
      else .error .invalidTxParams
  | _, _ => .error .invalidTxParams
end

/-- Modelled from the spec: `build` of the Transaction Codec — serialize and
pass the ordered element list to the byte encoding layer. -/
def buildTx (r : TxRecord) : Except Err (List Nat) :=
  match serializeTxTagged none r with
  | .ok it => .ok (rlpEncode it)
  | .error e => .error e

mutual
/-- A record satisfies its registered schema: the (tag, version) pair
resolves and every field value matches its field type and constraints. -/
def conformsTx : TxRecord → Bool
  | .mk tag ver fields =>
      match resolveSchemaE tag ver with
      | .ok ftys => conformsFields ftys fields
      | .error _ => false
/-- Pointwise conformance of field values against field types. -/
def conformsFields : List FieldType → FieldList → Bool
  | [], .nil => true
  | _ :: _, .nil => false
  | [], .cons _ _ => false
  | ft :: fts, .cons f fs => conformsField ft f && conformsFields fts fs
/-- One field value matches its field type: an identifier kind must be
allowed, a nested record must carry the field's fixed tag (when present)
and itself conform. -/
def conformsField : FieldType → FieldVal → Bool
  | .uint, .uint _ => true
  | .binFixed len, .bin bs => bs.length == len
  | .bin, .bin _ => true
  | .stateTree, .bin _ => true
  | .idf allowed, .idf k _ => allowed.contains k
  | .idList allowed, .idList ids => ids.all (fun p => allowed.contains p.1)
  | .pointers, .pointers _ => true
  | .nestedTx otag, .nested t =>
      (match otag with
       | some e => t.tag == e
       | none => true) && conformsTx t
  | .ttl, .ttl d _ => decide (d < 2)
  | _, _ => false
end

/-- Modelled from the spec: integer field decoding — a non-minimal
big-endian integer encoding (leading zero byte) is rejected with
`DecodeError`. -/
def decodeUIntE (bs : List Nat) : Except Err Nat :=
  if bs.head? = some 0 then .error .decodeErr else .ok (bytesToNat bs)

/-- Argument of the fuel-driven unpacking recursion: a whole transaction
item, a positional field list, or a single field. -/
inductive UnpackArg where
  | item (it : RLPItem)
  | fields (ftys : List FieldType) (items : RLPSeq)
  | field (ft : FieldType) (it : RLPItem)

/-- Result of the fuel-driven unpacking recursion. -/
inductive UnpackOut where
  | tx (t : TxRecord)
  | flds (fs : FieldList)
  | fld (f : FieldVal)
  deriving DecidableEq

/-- Modelled from the spec: the decoding half of the Transaction Codec.
The two leading elements are read as (kind, version), the schema resolved
from them, and the remaining elements decoded positionally (`DecodeError`
on an arity mismatch).  Fixed binary has its exact length checked while raw
binary and state-tree references pass through opaquely; identifier and
identifier-set entries must carry an allowed kind byte (`ArgumentError`
naming the offending entry otherwise); pointer lists decode order-preserved
key/identifier pairs without deduplication; a TTL pair rejects an unknown
discriminant (neither absolute nor relative) with `ArgumentError`.  A
nested-transaction field re-enters the codec on its embedded byte string
exactly as `genEntryField.deserialize` does, raising `ArgumentError` when
the field's fixed tag differs from the decoded tag.  Fuel decreases on
every step; the top level supplies the byte length, which dominates the
recursion depth. -/
def unpackAux : Nat → UnpackArg → Except Err UnpackOut
  | 0, _ => .error .decodeErr
  | fuel + 1, .item it =>
      match it with
      | .list (.cons (.bytes tb) (.cons (.bytes vb) rest)) =>
          match decodeUIntE tb with
          | .error e => .error e
          | .ok tag =>
              match decodeUIntE vb with
              | .error e => .error e
              | .ok ver =>
                  match resolveSchemaE tag ver with
                  | .error e => .error e
                  | .ok ftys =>
                      match unpackAux fuel (.fields ftys rest) with
                      | .ok (.flds fs) => .ok (.tx (.mk tag ver fs))
                      | .ok _ => .error .decodeErr
                      | .error e => .error e
      | _ => .error .decodeErr
  | fuel + 1, .fields ftys items =>
      match ftys, items with
      | [], .nil => .ok (.flds .nil)
      | [], .cons _ _ => .error .decodeErr
      | _ :: _, .nil => .error .decodeErr
      | ft :: fts, .cons it its =>
          match unpackAux fuel (.field ft it) with
          | .ok (.fld f) =>
              match unpackAux fuel (.fields fts its) with
              | .ok (.flds fs) => .ok (.flds (.cons f fs))
              | .ok _ => .error .decodeErr
              | .error e => .error e
          | .ok _ => .error .decodeErr
          | .error e => .error e
  | fuel + 1, .field ft it =>
      match ft, it with
      | .uint, .bytes bs =>
          match decodeUIntE bs with
          | .ok n => .ok (.fld (.uint n))
          | .error e => .error e
      | .binFixed len, .bytes bs =>
          if bs.length = len then .ok (.fld (.bin bs)) else .error .decodeErr
      | .bin, .bytes bs => .ok (.fld (.bin bs))
      | .stateTree, .bytes bs => .ok (.fld (.bin bs))
      | .idf allowed, .bytes bs =>
          match bs with
          | [] => .error .decodeErr
          | k :: p =>
              if allowed.contains k then .ok (.fld (.idf k p))
              else .error (.argumentIdKind k)
      | .idList allowed, .list s =>
          match deserializeIdList allowed s with
          | .error e => .error e
          | .ok ids => .ok (.fld (.idList ids))
      | .pointers, .list s =>
          match deserializePointers s with
          | .error e => .error e
          | .ok ps => .ok (.fld (.pointers ps))
      | .ttl, .list (.cons (.bytes db) (.cons (.bytes vb) .nil)) =>
          match decodeUIntE db with
          | .error e => .error e
          | .ok d =>
              if d < 2 then
                match decodeUIntE vb with
                | .error e => .error e
                | .ok v => .ok (.fld (.ttl d v))
              else .error (.argumentTtlType d)
      | .nestedTx otag, .bytes bs =>
          match rlpDecode bs with
          | .error e => .error e
          | .ok it2 =>
              match unpackAux fuel (.item it2) with
              | .ok (.tx t) =>
                  match otag with
                  | some e =>
                      if t.tag = e then .ok (.fld (.nested t))
                      else .error (.argumentTag e t.tag)
                  | none => .ok (.fld (.nested t))
              | .ok _ => .error .decodeErr
              | .error e => .error e
      | _, _ => .error .decodeErr

/-- Modelled from the spec: `unpack(bytes, expectedKind?)` of the
Transaction Codec — decode through the byte encoding layer, read kind and
version from the two leading elements, decode the fields against the
resolved schema, and compare the decoded kind with `expectedKind` when one
was supplied, failing with `ArgumentError` naming expected and actual on a
mismatch. -/
def unpackTx (bs : List Nat) (expected : Option Nat) : Except Err TxRecord :=
  match rlpDecode bs with
  | .error e => .error e
  | .ok it =>
      match unpackAux bs.length (.item it) with
      | .ok (.tx t) =>
          match expected with
          | some k => if t.tag = k then .ok t else .error (.argumentTag k t.tag)
          | none => .ok t
      | .ok _ => .error .decodeErr
      | .error e => .error e

/-- Input accepted by the nested-transaction field's `serialize` in the
source (`genEntryField`): either already-binary data (an `ArrayBuffer`
view) or record parameters for the Transaction Codec. -/
inductive EntryInput where
  | raw (bs : List Nat)
  | params (t : TxRecord)

/-- Embedded from the source (`genEntryField.serialize`): an already-binary
value is returned unchanged without invoking the codec; otherwise the
Transaction Codec's build runs on the parameters with the field's fixed tag
forced onto them, and its result (or failure) is passed through. -/
def serializeEntry (otag : Option Nat) (v : EntryInput) : Except Err (List Nat) :=
  match v with
  | .raw bs => .ok bs
  | .params t => buildTx (setTag otag t)

/-- Embedded from the source (`genEntryField.deserialize`): the buffer is
unpacked by the Transaction Codec and, when the field carries a fixed tag, a
decoded-tag mismatch raises `ArgumentError('Tag', tag, tx.tag)`; any unpack
failure propagates unchanged. -/
def deserializeEntry (otag : Option Nat) (buf : List Nat) : Except Err TxRecord :=
  match unpackTx buf none with
  | .error e => .error e
  | .ok t =>
      match otag with
      | some e => if t.tag = e then .ok t else .error (.argumentTag e t.tag)
      | none => .ok t

/-- A concrete transfer record (kind 12, version 1). -/
def spendExample : TxRecord :=
  .mk 12 1 (.cons (.idf 1 [7, 7]) (.cons (.idf 2 [8, 8]) (.cons (.uint 1000)
    (.cons (.uint 20) (.cons (.uint 0) (.cons (.uint 1) .nil))))))

/-- A concrete signature-wrapped record embedding `spendExample` through the
nested-transaction field. -/
def signedExample : TxRecord :=
  .mk 11 1 (.cons (.bin [9, 9]) (.cons (.nested spendExample) .nil))

example : conformsTx signedExample = true := rfl
example : (match buildTx signedExample with
  | .ok bs => unpackTx bs .none
  | .error e => .error e) = .ok signedExample := rfl

/-- A concrete naming-record update (kind 33) exercising the fixed-length
binary, TTL descriptor, key-value pointer list and identifier-set field
types; the pointer list deliberately carries a duplicate key — this layer
preserves order and does not dedupe. -/
def richExample : TxRecord :=
  .mk 33 1 (.cons (.idf 1 [7, 7]) (.cons (.uint 5)
    (.cons (.bin (List.replicate 32 9))
    (.cons (.ttl 1 500)
    (.cons (.pointers [([97, 107], 1, [5, 5]), ([97, 107], 4, [6, 6])])
    (.cons (.idList [(1, [3, 3]), (4, [4, 4])])
    (.cons (.uint 21) .nil)))))))

/-- A concrete proof-of-inclusion record (kind 60, TreesPoi): six opaque
state-tree hash references. -/
def poiExample : TxRecord :=
  .mk 60 1 (.cons (.bin [1]) (.cons (.bin [2]) (.cons (.bin [3])
    (.cons (.bin [4]) (.cons (.bin [5]) (.cons (.bin [6]) .nil))))))

example : conformsTx richExample = true := rfl
example : conformsTx poiExample = true := rfl

example : unpackAux 5
    (.field .ttl (.list (.cons (.bytes [7]) (.cons (.bytes [1]) .nil)))) =
    .error (.argumentTtlType 7) := rfl
example : serializeField .ttl (.ttl 7 5) = .error .invalidTxParams := rfl
example : serializeField (.idList [1]) (.idList [(2, [5])]) =
    .error (.argumentIdKind 2) := rfl
example : unpackAux 5 (.field (.idList [1]) (.list (.cons (.bytes [2, 5]) .nil))) =
    .error (.argumentIdKind 2) := rfl
example : serializeField (.binFixed 32) (.bin [1, 2]) = .error .invalidTxParams := rfl
example : unpackAux 5 (.field (.binFixed 32) (.bytes [1, 2])) = .error .decodeErr := rfl

theorem decodeUIntE_natBytes (n : Nat) : decodeUIntE (natBytes n) = .ok n := by
  unfold decodeUIntE
  rw [if_neg (natBytes_head_ne_zero n), bytesToNat_natBytes]

theorem serializeTxTagged_none (otag : Option Nat) (t : TxRecord)
    (h : ∀ e, otag = some e → t.tag = e) :
    serializeTxTagged otag t = serializeTxTagged none t := by
  cases otag with
  | none => rfl
  | some e =>
      obtain ⟨tag, ver, fields⟩ := t
      have htag : tag = e := h e rfl
      subst htag
      rfl

theorem serializeTxTagged_shape (otag : Option Nat) (t : TxRecord) (it : RLPItem)
    (h : serializeTxTagged otag t = .ok it) :
    ∃ a b s, it = .list (.cons (.bytes a) (.cons (.bytes b) s)) := by
  obtain ⟨tag, ver, fields⟩ := t
  simp only [serializeTxTagged] at h
  cases hres : resolveSchemaE ((otag.getD tag)) ver with
  | error e => rw [hres] at h; exact Except.noConfusion h
  | ok ftys =>
      rw [hres] at h
      dsimp only at h
      cases hsf : serializeFields ftys fields with
      | error e => rw [hsf] at h; exact Except.noConfusion h
      | ok items =>
          rw [hsf] at h
          simp at h
          exact ⟨_, _, _, h.symm⟩

theorem rlpEncode_list3_ge (a b : List Nat) (s : RLPSeq) :
    3 ≤ (rlpEncode (.list (.cons (.bytes a) (.cons (.bytes b) s)))).length := by
  rw [rlpEncode_list_eq, List.length_append]
  have l1 := lenHeader_length_pos 192
    (rlpEncodeSeq (.cons (.bytes a) (.cons (.bytes b) s))).length
  have l2 : 2 ≤ (rlpEncodeSeq (.cons (.bytes a) (.cons (.bytes b) s))).length := by
    rw [rlpEncodeSeq_length, rlpEncodeSeq_length]
    have e1 := rlpEncode_length_pos (.bytes a)
    have e2 := rlpEncode_length_pos (.bytes b)
    omega
  omega

theorem rlpEncode_bytes_len_ne_one (bs : List Nat) (h : bs.length ≠ 1) :
    bs.length + 1 ≤ (rlpEncode (.bytes bs)).length := by
  rw [rlpEncode_bytes_eq bs (by rintro ⟨h1, -⟩; exact h h1), List.length_append]
  have := lenHeader_length_pos 128 bs.length
  omega

theorem deserializeIdList_serializeIdListE (allowed : List Nat) :
    ∀ ids s, serializeIdListE allowed ids = .ok s →
      deserializeIdList allowed s = .ok ids := by
  intro ids
  induction ids with
  | nil =>
      intro s h
      simp [serializeIdListE] at h
      subst h
      rfl
  | cons hd tl ih =>
      intro s h
      obtain ⟨k, p⟩ := hd
      simp only [serializeIdListE] at h
      by_cases hk : allowed.contains k = true
      · rw [if_pos hk] at h
        cases hrest : serializeIdListE allowed tl with
        | error e => rw [hrest] at h; exact Except.noConfusion h
        | ok s2 =>
            rw [hrest] at h
            dsimp only at h
            simp at h
            subst h
            simp only [deserializeIdList]
            rw [if_pos hk, ih s2 hrest]
      · rw [if_neg hk] at h
        exact Except.noConfusion h

theorem deserializePointers_serializePointersSeq :
    ∀ ps, deserializePointers (serializePointersSeq ps) = .ok ps := by
  intro ps
  induction ps with
  | nil => rfl
  | cons hd tl ih =>
      obtain ⟨key, k, p⟩ := hd
      simp only [serializePointersSeq, deserializePointers]
      rw [ih]

theorem unpackAux_serialize : ∀ fuel : Nat,
    (∀ r it, conformsTx r = true → serializeTxTagged none r = .ok it →
      itemSizeOk it = true → (rlpEncode it).length ≤ fuel →
      unpackAux fuel (.item it) = .ok (.tx r)) ∧
    (∀ ftys fs seq, conformsFields ftys fs = true → serializeFields ftys fs = .ok seq →
      seqSizeOk seq = true → (rlpEncodeSeq seq).length + 1 ≤ fuel →
      unpackAux fuel (.fields ftys seq) = .ok (.flds fs)) ∧
    (∀ ft f it, conformsField ft f = true → serializeField ft f = .ok it →
      itemSizeOk it = true → (rlpEncode it).length ≤ fuel →
      unpackAux fuel (.field ft it) = .ok (.fld f)) := by
  intro fuel
  induction fuel with
  | zero =>
      refine ⟨fun r it _ _ _ hlen => ?_, fun ftys fs seq _ _ _ hlen => ?_,
        fun ft f it _ _ _ hlen => ?_⟩
      · have := rlpEncode_length_pos it
        omega
      · omega
      · have := rlpEncode_length_pos it
        omega
  | succ F ih =>
      obtain ⟨ihA, ihB, ihC⟩ := ih
      refine ⟨?_, ?_, ?_⟩
      · intro r it hconf hser hsz hlen
        obtain ⟨tag, ver, fields⟩ := r
        simp only [conformsTx] at hconf
        simp only [serializeTxTagged, Option.getD] at hser
        cases hres : resolveSchemaE tag ver with
        | error e =>
            rw [hres] at hconf
            dsimp only at hconf
            exact Bool.noConfusion hconf
        | ok ftys =>
            rw [hres] at hconf hser
            dsimp only at hconf hser
            cases hsf : serializeFields ftys fields with
            | error e => rw [hsf] at hser; exact Except.noConfusion hser
            | ok items =>
                rw [hsf] at hser
                simp at hser
                subst hser
                simp only [itemSizeOk, seqSizeOk, Bool.and_eq_true,
                  decide_eq_true_eq] at hsz
                obtain ⟨⟨hsza, hszb, hszs⟩, hszp⟩ := hsz
                have hlen3 : (rlpEncodeSeq items).length + 3 ≤
                    (rlpEncode (RLPItem.list (.cons (.bytes (natBytes tag))
                      (.cons (.bytes (natBytes ver)) items)))).length := by
                  rw [rlpEncode_list_eq, List.length_append]
                  have l1 := lenHeader_length_pos 192
                    (rlpEncodeSeq (.cons (.bytes (natBytes tag))
                      (.cons (.bytes (natBytes ver)) items))).length
                  have l2 : (rlpEncodeSeq items).length + 2 ≤
                      (rlpEncodeSeq (.cons (.bytes (natBytes tag))
                        (.cons (.bytes (natBytes ver)) items))).length := by
                    rw [rlpEncodeSeq_length, rlpEncodeSeq_length]
                    have e1 := rlpEncode_length_pos (.bytes (natBytes tag))
                    have e2 := rlpEncode_length_pos (.bytes (natBytes ver))
                    omega
                  omega
                have hb := ihB ftys fields items hconf hsf hszs (by omega)
                simp only [unpackAux]
                rw [decodeUIntE_natBytes, decodeUIntE_natBytes]
                dsimp only
                rw [hres]
                dsimp only
                rw [hb]
      · intro ftys fs seq hconf hser hsz hlen
        cases ftys with
        | nil =>
            cases fs with
            | nil =>
                simp [serializeFields] at hser
                subst hser
                simp [unpackAux]
            | cons f fs' => simp [conformsFields] at hconf
        | cons ft fts =>
            cases fs with
            | nil => simp [conformsFields] at hconf
            | cons f fs' =>
                simp only [conformsFields, Bool.and_eq_true] at hconf
                obtain ⟨hcf, hcfs⟩ := hconf
                simp only [serializeFields] at hser
                cases h1 : serializeField ft f with
                | error e => rw [h1] at hser; exact Except.noConfusion hser
                | ok it1 =>
                    rw [h1] at hser
                    cases h2 : serializeFields fts fs' with
                    | error e => rw [h2] at hser; exact Except.noConfusion hser
                    | ok rest =>
                        rw [h2] at hser
                        simp at hser
                        subst hser
                        simp only [seqSizeOk, Bool.and_eq_true] at hsz
                        obtain ⟨hsz1, hszr⟩ := hsz
                        rw [rlpEncodeSeq_length] at hlen
                        have he1 := rlpEncode_length_pos it1
                        have hc := ihC ft f it1 hcf h1 hsz1 (by omega)
                        have hb := ihB fts fs' rest hcfs h2 hszr (by omega)
                        simp only [unpackAux]
                        rw [hc, hb]
      · intro ft f it hconf hser hsz hlen
        cases ft with
        | uint =>
            cases f
            case uint n =>
              simp [serializeField] at hser
              subst hser
              simp only [unpackAux]
              rw [decodeUIntE_natBytes]
            all_goals simp [conformsField] at hconf
        | binFixed len =>
            cases f
            case bin bs =>
              simp only [conformsField, beq_iff_eq] at hconf
              simp only [serializeField] at hser
              rw [if_pos hconf] at hser
              simp at hser
              subst hser
              simp only [unpackAux]
              rw [if_pos hconf]
            all_goals simp [conformsField] at hconf
        | bin =>
            cases f
            case bin bs =>
              simp [serializeField] at hser
              subst hser
              simp [unpackAux]
            all_goals simp [conformsField] at hconf
        | stateTree =>
            cases f
            case bin bs =>
              simp [serializeField] at hser
              subst hser
              simp [unpackAux]
            all_goals simp [conformsField] at hconf
        | idf allowed =>
            cases f
            case idf k p =>
              simp only [conformsField] at hconf
              simp only [serializeField] at hser
              rw [if_pos hconf] at hser
              simp at hser
              subst hser
              simp only [unpackAux]
              rw [if_pos hconf]
            all_goals simp [conformsField] at hconf
        | idList allowed =>
            cases f
            case idList ids =>
              simp only [serializeField] at hser
              cases hsl : serializeIdListE allowed ids with
              | error e => rw [hsl] at hser; exact Except.noConfusion hser
              | ok s =>
                  rw [hsl] at hser
                  dsimp only at hser
                  simp at hser
                  subst hser
                  simp only [unpackAux]
                  rw [deserializeIdList_serializeIdListE allowed ids s hsl]
            all_goals simp [conformsField] at hconf
        | pointers =>
            cases f
            case pointers ps =>
              simp [serializeField] at hser
              subst hser
              simp only [unpackAux]
              rw [deserializePointers_serializePointersSeq ps]
            all_goals simp [conformsField] at hconf
        | ttl =>
            cases f
            case ttl d v =>
              simp only [conformsField, decide_eq_true_eq] at hconf
              simp only [serializeField] at hser
              rw [if_pos hconf] at hser
              simp at hser
              subst hser
              simp only [unpackAux]
              rw [decodeUIntE_natBytes]
              dsimp only
              rw [if_pos hconf]
              rw [decodeUIntE_natBytes]
            all_goals simp [conformsField] at hconf
        | nestedTx otag =>
            cases f
            case nested t =>
              simp only [conformsField, Bool.and_eq_true] at hconf
              obtain ⟨hto, hct⟩ := hconf
              simp only [serializeField] at hser
              cases hst : serializeTxTagged otag t with
              | error e => rw [hst] at hser; exact Except.noConfusion hser
              | ok innerIt =>
                  rw [hst] at hser
                  simp at hser
                  subst hser
                  have htagm : ∀ e, otag = some e → t.tag = e := by
                    intro e he
                    subst he
                    simpa using hto
                  have hstn : serializeTxTagged none t = .ok innerIt := by
                    rw [← serializeTxTagged_none otag t htagm]
                    exact hst
                  obtain ⟨a, b, s, hshape⟩ :=
                    serializeTxTagged_shape none t innerIt hstn
                  have hlen3 : 3 ≤ (rlpEncode innerIt).length := by
                    rw [hshape]
                    exact rlpEncode_list3_ge a b s
                  have hlb : (rlpEncode innerIt).length + 1 ≤
                      (rlpEncode (.bytes (rlpEncode innerIt))).length :=
                    rlpEncode_bytes_len_ne_one _ (by omega)
                  simp only [itemSizeOk, decide_eq_true_eq] at hsz
                  have hszin : itemSizeOk innerIt = true :=
                    encLen_itemSizeOk innerIt hsz
                  have ha := ihA t innerIt hct hstn hszin (by omega)
                  simp only [unpackAux]
                  rw [rlpDecode_rlpEncode innerIt hszin]
                  dsimp only
                  rw [ha]
                  dsimp only
                  cases otag with
                  | none => rfl
                  | some e =>
                      have ht : t.tag = e := htagm e rfl
                      dsimp only
                      rw [if_pos ht]
            all_goals simp [conformsField] at hconf

/-- C1: round-trip of the Transaction Codec — for every record satisfying
its registered schema's constraints, unpacking the byte string produced by
build returns the record field-for-field, including nested transactions
recursively (stated for byte strings within the 2^64 wire limit of the
length-of-length header scheme). -/
theorem tx_roundtrip_unpack_build (r : TxRecord) (bs : List Nat)
    (hconf : conformsTx r = true) (hb : buildTx r = .ok bs)
    (hlen : bs.length < 2 ^ 64) :
    unpackTx bs .none = .ok r := by
  unfold buildTx at hb
  cases hst : serializeTxTagged none r with
  | error e => rw [hst] at hb; exact Except.noConfusion hb
  | ok it =>
      rw [hst] at hb
      simp at hb
      subst hb
      have hsz : itemSizeOk it = true := encLen_itemSizeOk it hlen
      unfold unpackTx
      rw [rlpDecode_rlpEncode it hsz]
      dsimp only
      have ha := (unpackAux_serialize (rlpEncode it).length).1 r it hconf hst hsz
        (le_refl _)
      rw [ha]

/-- The wire bytes of `buildTx signedExample`. -/
def w1bytes : List Nat :=
  [215, 11, 1, 130, 9, 9, 145, 208, 12, 1, 131, 1, 7, 7, 131, 2, 8, 8,
   130, 3, 232, 20, 128, 1]

/-- The wire bytes of `buildTx richExample`. -/
def wRichBytes : List Nat :=
  [248, 72, 33, 1, 131, 1, 7, 7, 5, 160, 9, 9, 9, 9, 9, 9, 9, 9, 9, 9, 9,
   9, 9, 9, 9, 9, 9, 9, 9, 9, 9, 9, 9, 9, 9, 9, 9, 9, 9, 9, 9, 9, 196, 1,
   130, 1, 244, 208, 199, 130, 97, 107, 131, 1, 5, 5, 199, 130, 97, 107,
   131, 4, 6, 6, 200, 131, 1, 3, 3, 131, 4, 4, 4, 21]

/-- The wire bytes of `buildTx poiExample`. -/
def wPoiBytes : List Nat :=
  [200, 60, 1, 1, 2, 3, 4, 5, 6]

theorem tx_roundtrip_unpack_build_witness :
    (conformsTx signedExample = true ∧ buildTx signedExample = .ok w1bytes ∧
     w1bytes.length < 2 ^ 64 ∧ unpackTx w1bytes .none = .ok signedExample) ∧
    (conformsTx richExample = true ∧ buildTx richExample = .ok wRichBytes ∧
     unpackTx wRichBytes .none = .ok richExample) ∧
    (conformsTx poiExample = true ∧ buildTx poiExample = .ok wPoiBytes ∧
     unpackTx wPoiBytes .none = .ok poiExample) :=
  ⟨⟨rfl, rfl, by decide,
    tx_roundtrip_unpack_build signedExample w1bytes rfl rfl (by decide)⟩,
   ⟨rfl, rfl,
    tx_roundtrip_unpack_build richExample wRichBytes rfl rfl (by decide)⟩,
   ⟨rfl, rfl,
    tx_roundtrip_unpack_build poiExample wPoiBytes rfl rfl (by decide)⟩⟩

/-- C4: expected-kind check on unpack — when a byte string decodes to a
record, supplying an expected kind makes unpack return the record exactly
when the decoded kind matches, and fail with `ArgumentError` naming expected
and actual kinds otherwise (no expected kind returns the record as is). -/
theorem unpack_expected_kind_check (bs : List Nat) (k : Nat) (r : TxRecord)
    (h : unpackTx bs .none = .ok r) :
    unpackTx bs (.some k) =
      if r.tag = k then .ok r else .error (.argumentTag k r.tag) := by
  unfold unpackTx at h ⊢
  cases hd : rlpDecode bs with
  | error e =>
      rw [hd] at h
      dsimp only at h
      exact Except.noConfusion h
  | ok it =>
      rw [hd] at h
      dsimp only at h ⊢
      cases hu : unpackAux bs.length (.item it) with
      | error e =>
          rw [hu] at h
          dsimp only at h
          exact Except.noConfusion h
      | ok out =>
          rw [hu] at h
          cases out with
          | tx t =>
              dsimp only at h ⊢
              simp at h
              subst h
              rfl
          | flds fs =>
              dsimp only at h
              exact Except.noConfusion h
          | fld f =>
              dsimp only at h
              exact Except.noConfusion h

theorem unpack_expected_kind_check_witness :
    unpackTx w1bytes (.some 12) = .error (.argumentTag 12 11) ∧
    unpackTx w1bytes (.some 11) = .ok signedExample := by
  constructor
  · rw [unpack_expected_kind_check w1bytes 12 signedExample rfl,
      if_neg (by decide)]
    rfl
  · rw [unpack_expected_kind_check w1bytes 11 signedExample rfl,
      if_pos (by decide)]

theorem serializeTxTagged_setTag (otag : Option Nat) (t : TxRecord) :
    serializeTxTagged otag t = serializeTxTagged none (setTag otag t) := by
  cases otag with
  | none => rfl
  | some e =>
      obtain ⟨tag, ver, fields⟩ := t
      rfl

/-- C5: nested-transaction fields recurse through the Transaction Codec —
the field's serialize invokes build on the embedded record (with the
field's fixed tag forced onto the parameters) and deserialize invokes
unpack on the embedded byte string; any failure of the recursive call
propagates to the caller unchanged. -/
theorem nested_field_recurses_codec :
    (∀ otag t, serializeEntry otag (.params t) = buildTx (setTag otag t)) ∧
    (∀ otag t, serializeField (.nestedTx otag) (.nested t) =
      (buildTx (setTag otag t)).map RLPItem.bytes) ∧
    (∀ otag t e, buildTx (setTag otag t) = .error e →
      serializeEntry otag (.params t) = .error e) ∧
    (∀ otag bs e, unpackTx bs .none = .error e →
      deserializeEntry otag bs = .error e) := by
  refine ⟨fun otag t => rfl, ?_, fun otag t e h => h, ?_⟩
  · intro otag t
    simp only [serializeField, buildTx, serializeTxTagged_setTag otag t]
    cases serializeTxTagged none (setTag otag t) <;> rfl
  · intro otag bs e h
    unfold deserializeEntry
    rw [h]

theorem nested_field_recurses_codec_witness :
    buildTx (setTag (.some 99) spendExample) = .error .tagNotFound ∧
    serializeEntry (.some 99) (.params spendExample) = .error .tagNotFound ∧
    unpackTx [0] .none = .error .decodeErr ∧
    deserializeEntry (.some 11) [0] = .error .decodeErr :=
  ⟨rfl, nested_field_recurses_codec.2.2.1 (.some 99) spendExample .tagNotFound rfl,
    rfl, nested_field_recurses_codec.2.2.2 (.some 11) [0] .decodeErr rfl⟩

/-- C10: when the value supplied to the nested-transaction field's
serialize is already binary, the bytes are returned unchanged without
invoking the Transaction Codec's build — no schema resolution or constraint
validation happens, as the second part shows on bytes that are not even a
decodable transaction. -/
theorem raw_entry_bypasses_build :
    (∀ otag bs, serializeEntry otag (.raw bs) = .ok bs) ∧
    (serializeEntry (.some 11) (.raw [0]) = .ok [0] ∧
      unpackTx [0] .none = .error .decodeErr) :=
  ⟨fun _ _ => rfl, rfl, rfl⟩

theorem unpackAux_envelope (fuel : Nat) (it : RLPItem) (tag ver : Nat) (fs : FieldList)
    (h : unpackAux (fuel + 1) (.item it) = .ok (.tx (.mk tag ver fs))) :
    ∃ tb vb rest, it = .list (.cons (.bytes tb) (.cons (.bytes vb) rest)) ∧
      decodeUIntE tb = .ok tag ∧ decodeUIntE vb = .ok ver := by
  cases it with
  | bytes bs => simp [unpackAux] at h
  | list its =>
      cases its with
      | nil => simp [unpackAux] at h
      | cons hd tl =>
          cases hd with
          | list l2 => simp [unpackAux] at h
          | bytes tb =>
              cases tl with
              | nil => simp [unpackAux] at h
              | cons hd2 tl2 =>
                  cases hd2 with
                  | list l3 => simp [unpackAux] at h
                  | bytes vb =>
                      simp only [unpackAux] at h
                      cases h1 : decodeUIntE tb with
                      | error e => rw [h1] at h; exact Except.noConfusion h
                      | ok tag0 =>
                          rw [h1] at h
                          dsimp only at h
                          cases h2 : decodeUIntE vb with
                          | error e => rw [h2] at h; exact Except.noConfusion h
                          | ok ver0 =>
                              rw [h2] at h
                              dsimp only at h
                              cases h3 : resolveSchemaE tag0 ver0 with
                              | error e => rw [h3] at h; exact Except.noConfusion h
                              | ok ftys =>
                                  rw [h3] at h
                                  dsimp only at h
                                  cases h4 : unpackAux fuel (.fields ftys tl2) with
                                  | error e =>
                                      rw [h4] at h
                                      exact Except.noConfusion h
                                  | ok out =>
                                      rw [h4] at h
                                      cases out with
                                      | tx t =>
                                          dsimp only at h
                                          exact Except.noConfusion h
                                      | flds fs0 =>
                                          dsimp only at h
                                          simp at h
                                          exact ⟨tb, vb, tl2, rfl,
                                            by rw [h1, h.1], by rw [h2, h.2.1]⟩
                                      | fld f =>
                                          dsimp only at h
                                          exact Except.noConfusion h

/-- C8: fixed envelope — every byte string produced by build decodes to a
list whose first two elements are the kind's integer code and the schema
version (as minimal big-endian integers), for every transaction type; and
unpack always reads kind and version from those two leading elements before
any field-level decoding (any item unpacking to a record necessarily starts
with two byte-string elements that decode to that record's kind and
version). -/
theorem tx_envelope_tag_version :
    (∀ r bs, conformsTx r = true → buildTx r = .ok bs → bs.length < 2 ^ 64 →
      ∃ rest, rlpDecode bs =
        .ok (.list (.cons (.bytes (natBytes r.tag))
          (.cons (.bytes (natBytes r.version)) rest)))) ∧
    (∀ fuel it tag ver fs,
      unpackAux (fuel + 1) (.item it) = .ok (.tx (.mk tag ver fs)) →
      ∃ tb vb rest, it = .list (.cons (.bytes tb) (.cons (.bytes vb) rest)) ∧
        decodeUIntE tb = .ok tag ∧ decodeUIntE vb = .ok ver) := by
  constructor
  · intro r bs hconf hb hlen
    obtain ⟨tag, ver, fields⟩ := r
    unfold buildTx at hb
    cases hst : serializeTxTagged none (.mk tag ver fields) with
    | error e => rw [hst] at hb; exact Except.noConfusion hb
    | ok it =>
        rw [hst] at hb
        simp at hb
        subst hb
        have hsz : itemSizeOk it = true := encLen_itemSizeOk it hlen
        simp only [serializeTxTagged] at hst
        cases hres : resolveSchemaE ((none : Option Nat).getD tag) ver with
        | error e => rw [hres] at hst; exact Except.noConfusion hst
        | ok ftys =>
            rw [hres] at hst
            dsimp only at hst
            cases hsf : serializeFields ftys fields with
            | error e => rw [hsf] at hst; exact Except.noConfusion hst
            | ok items =>
                rw [hsf] at hst
                simp at hst
                refine ⟨items, ?_⟩
                rw [rlpDecode_rlpEncode it hsz, ← hst]
                rfl
  · exact unpackAux_envelope

theorem tx_envelope_tag_version_witness :
    (∃ rest, rlpDecode w1bytes =
      .ok (.list (.cons (.bytes (natBytes signedExample.tag))
        (.cons (.bytes (natBytes signedExample.version)) rest)))) ∧
    (∃ tb vb rest,
      RLPItem.list (.cons (.bytes [24]) (.cons (.bytes [1])
        (.cons (.bytes [5]) (.cons (.bytes [7, 7]) .nil)))) =
        .list (.cons (.bytes tb) (.cons (.bytes vb) rest)) ∧
      decodeUIntE tb = .ok 24 ∧ decodeUIntE vb = .ok 1) := by
  constructor
  · exact tx_envelope_tag_version.1 signedExample w1bytes rfl rfl (by decide)
  · apply tx_envelope_tag_version.2 23 _ 24 1
      (.cons (.uint 5) (.cons (.bin [7, 7]) .nil))
    rfl

/-- C7: canonicality of byte-level decode — a non-minimal integer encoding
(such as the two-byte encoding of the value 5) is rejected with
`DecodeError`; a header declaring more payload than the available bytes is
rejected with `PayloadLengthError`, as are trailing bytes beyond the
declared item; and no non-canonical input is accepted at all: whatever
byte string decode accepts is exactly the canonical encoding of the decoded
item. -/
theorem decode_rejects_noncanonical :
    (∀ rest : List Nat, decodeUIntE (0 :: rest) = .error .decodeErr) ∧
    (∀ fuel b rest, 128 ≤ b → b < 184 → rest.length < b - 128 →
      decAux (fuel + 1) false (b :: rest) = .error .payloadLength) ∧
    (∀ it rest, itemSizeOk it = true → rest ≠ [] →
      rlpDecode (rlpEncode it ++ rest) = .error .payloadLength) ∧
    (∀ bs it, (∀ x ∈ bs, x < 256) → rlpDecode bs = .ok it → rlpEncode it = bs) := by
  refine ⟨?_, ?_, ?_, ?_⟩
  · intro rest
    rfl
  · intro fuel b rest h1 h2 h3
    exact decAux_shortStr_under fuel b rest h1 h2 (by omega)
  · intro it rest hsz hne
    unfold rlpDecode
    have h1 := (decAux_roundtrip (2 * (rlpEncode it ++ rest).length + 2)).1 it rest
      hsz (by simp; omega)
    rw [h1]
    cases rest with
    | nil => exact absurd rfl hne
    | cons r rs => rfl
  · intro bs it hbl h
    exact rlpDecode_canonical bs hbl it h

theorem decode_rejects_noncanonical_witness :
    decodeUIntE [0, 5] = .error .decodeErr ∧
    decAux 1 false [130, 1] = .error .payloadLength ∧
    rlpDecode [128, 7] = .error .payloadLength ∧
    (rlpDecode [196, 5, 130, 1, 2] =
      .ok (.list (.cons (.bytes [5]) (.cons (.bytes [1, 2]) .nil))) ∧
     rlpEncode (.list (.cons (.bytes [5]) (.cons (.bytes [1, 2]) .nil))) =
      [196, 5, 130, 1, 2]) := by
  refine ⟨decode_rejects_noncanonical.1 [5], ?_, ?_, rfl, ?_⟩
  · exact decode_rejects_noncanonical.2.1 0 130 [1] (by decide) (by decide) (by decide)
  · exact decode_rejects_noncanonical.2.2.1 (.bytes []) [7] (by decide) (by decide)
  · exact decode_rejects_noncanonical.2.2.2 [196, 5, 130, 1, 2] _ (by decide) rfl

/-- The Bitcoin base58 alphabet used by the textual identifier layer. -/
def b58Alphabet : List Char :=
  "123456789ABCDEFGHJKLMNPQRSTUVWXYZabcdefghijkmnopqrstuvwxyz".toList

/-- Digit to base58 character. -/
def b58Char (d : Nat) : Char :=
  b58Alphabet.getD d '?'

/-- Base58 character to digit (the alphabet length, 58, when absent). -/
def b58Val (c : Char) : Nat :=
  b58Alphabet.indexOf c

/-- Big-endian base58 digit characters of a natural number (empty for
zero). -/
def natToB58 (n : Nat) : List Char :=
  ((digAux 58 (n + 1) n).map b58Char).reverse

/-- Value of a big-endian base58 character string. -/
def b58ToNat (cs : List Char) : Nat :=
  cs.foldl (fun a c => a * 58 + b58Val c) 0

/-- Modelled from the spec: base58 encoding of a byte string (Bitcoin
alphabet, no padding) — leading zero bytes become leading `1` characters,
the rest is the big-endian base58 expansion of the remaining value. -/
def base58Encode (bs : List Nat) : List Char :=
  List.replicate (bs.takeWhile (· == 0)).length '1' ++
    natToB58 (bytesToNat (bs.dropWhile (· == 0)))

/-- Modelled from the spec: base58 decoding; characters outside the
alphabet fail with `DecodeError`. -/
def base58Decode (cs : List Char) : Except Err (List Nat) :=
  if cs.all (fun c => b58Alphabet.contains c) then
    .ok (List.replicate (cs.takeWhile (· == '1')).length 0 ++
      natBytes (b58ToNat (cs.dropWhile (· == '1'))))
  else .error .decodeErr

theorem foldlBase_aux (base : Nat) (bs : List Nat) :
    ∀ acc, bs.foldl (fun a b => a * base + b) acc =
      acc * base ^ bs.length + bs.foldl (fun a b => a * base + b) 0 := by
  induction bs with
  | nil => intro acc; simp
  | cons c t ih =>
      intro acc
      have h1 : List.foldl (fun a b => a * base + b) (0 * base + c) t =
          c * base ^ t.length + List.foldl (fun a b => a * base + b) 0 t := by
        rw [ih (0 * base + c)]; ring_nf
      simp only [List.foldl_cons, List.length_cons, h1, ih (acc * base + c)]
      ring

theorem foldlBase_eq_ofDigits (base : Nat) (bs : List Nat) :
    bs.foldl (fun a b => a * base + b) 0 = Nat.ofDigits base bs.reverse := by
  induction bs with
  | nil => simp [Nat.ofDigits]
  | cons c t ih =>
      have h1 : List.foldl (fun a b => a * base + b) (0 * base + c) t =
          c * base ^ t.length + List.foldl (fun a b => a * base + b) 0 t := by
        rw [foldlBase_aux base t (0 * base + c)]; ring_nf
      show List.foldl _ (0 * base + c) t = _
      rw [h1, ih, List.reverse_cons, Nat.ofDigits_append]
      simp [Nat.ofDigits, List.length_reverse]
      ring

theorem b58Val_b58Char : ∀ d, d < 58 → b58Val (b58Char d) = d := by decide

theorem b58Char_contains : ∀ d, d < 58 → b58Alphabet.contains (b58Char d) = true := by
  decide

theorem b58Char_eq_one_iff : ∀ d, d < 58 → ((b58Char d == '1') = (d == 0)) := by
  decide

theorem nat58_digits_lt (n : Nat) : ∀ d ∈ digAux 58 (n + 1) n, d < 58 := by
  rw [digAux_eq_digits 58 (by norm_num) (n + 1) n
    (by calc n < 58 ^ n := Nat.lt_pow_self (by norm_num) n
          _ ≤ 58 ^ (n + 1) := Nat.pow_le_pow_right (by norm_num) (by omega))]
  intro d hd
  exact Nat.digits_lt_base (by norm_num) hd

theorem digAux58_eq (n : Nat) : digAux 58 (n + 1) n = Nat.digits 58 n := by
  rw [digAux_eq_digits 58 (by norm_num) (n + 1) n]
  calc n < 58 ^ n := Nat.lt_pow_self (by norm_num) n
    _ ≤ 58 ^ (n + 1) := Nat.pow_le_pow_right (by norm_num) (by omega)

theorem b58_foldl_vals (cs : List Nat) (h : ∀ d ∈ cs, d < 58) :
    ∀ acc, (cs.map b58Char).foldl (fun a c => a * 58 + b58Val c) acc =
      cs.foldl (fun a d => a * 58 + d) acc := by
  induction cs with
  | nil => intro acc; rfl
  | cons d t ih =>
      intro acc
      simp only [List.map_cons, List.foldl_cons]
      rw [b58Val_b58Char d (h d (List.mem_cons_self d t))]
      exact ih (fun x hx => h x (List.mem_cons_of_mem d hx)) _

theorem b58ToNat_natToB58 (n : Nat) : b58ToNat (natToB58 n) = n := by
  unfold b58ToNat natToB58
  rw [← List.map_reverse, b58_foldl_vals _
    (fun d hd => nat58_digits_lt n d (List.mem_reverse.mp hd))]
  rw [foldlBase_eq_ofDigits, List.reverse_reverse, digAux58_eq, Nat.ofDigits_digits]

theorem natToB58_head_ne_one (n : Nat) (hn : n ≠ 0) :
    ∀ c, (natToB58 n).head? = some c → (c == '1') = false := by
  intro c hc
  unfold natToB58 at hc
  rw [← List.map_reverse, digAux58_eq] at hc
  have hne : Nat.digits 58 n ≠ [] := Nat.digits_ne_nil_iff_ne_zero.mpr hn
  have hrne : (Nat.digits 58 n).reverse ≠ [] := by simpa using hne
  cases hrev : (Nat.digits 58 n).reverse with
  | nil => exact absurd hrev hrne
  | cons d ds =>
      rw [hrev] at hc
      simp at hc
      have hdmem : d ∈ Nat.digits 58 n := by
        have : d ∈ (Nat.digits 58 n).reverse := by rw [hrev]; exact List.mem_cons_self d ds
        exact List.mem_reverse.mp this
      have hdlt : d < 58 := Nat.digits_lt_base (by norm_num) hdmem
      have hdne : d ≠ 0 := by
        intro h0
        have hlast := Nat.getLast_digit_ne_zero 58 hn
        have : (Nat.digits 58 n).getLast? = some d := by
          rw [← List.head?_reverse, hrev]
          rfl
        rw [List.getLast?_eq_getLast _ hne] at this
        simp at this
        exact hlast (this.trans h0)
      rw [← hc, b58Char_eq_one_iff d hdlt]
      simpa using hdne

theorem bytesToNat_ne_zero (bs : List Nat) (hne : bs ≠ []) (hhd : bs.head? ≠ some 0)
    (hlt : ∀ x ∈ bs, x < 256) : bytesToNat bs ≠ 0 := by
  intro h0
  have := natBytes_bytesToNat bs hhd hlt
  rw [h0, natBytes_zero] at this
  exact hne this.symm

theorem base58_roundtrip (bs : List Nat) (hlt : ∀ x ∈ bs, x < 256) :
    base58Decode (base58Encode bs) = .ok bs := by
  unfold base58Encode base58Decode
  set z := (bs.takeWhile (· == 0)).length with hz
  set rest := bs.dropWhile (· == 0) with hrest
  have hrlt : ∀ x ∈ rest, x < 256 :=
    fun x hx => hlt x (((List.dropWhile_sublist _).mem hx))
  have hrhd : rest.head? ≠ some 0 := by
    have := List.head?_dropWhile_not (fun x => x == 0) bs
    rw [← hrest] at this
    intro hcon
    rw [hcon] at this
    simp at this
  -- the base58 tail starts with a non-'1' character (or is empty)
  have htail : ∀ c, (natToB58 (bytesToNat rest)).head? = some c → (c == '1') = false := by
    intro c hc
    cases hrn : rest with
    | nil =>
        rw [hrn] at hc
        simp [bytesToNat, natToB58, digAux] at hc
    | cons r rs =>
        apply natToB58_head_ne_one (bytesToNat rest) _ c hc
        exact bytesToNat_ne_zero rest (by rw [hrn]; simp) hrhd hrlt
  -- alphabet membership
  rw [if_pos]
  · -- takeWhile and dropWhile split the encoded string back apart
    have htw : List.takeWhile (· == '1')
        (List.replicate z '1' ++ natToB58 (bytesToNat rest)) = List.replicate z '1' := by
      rw [List.takeWhile_append]
      rw [List.takeWhile_replicate]
      simp only [if_pos (by rfl : (('1' == '1') = true)), List.length_replicate,
        if_pos rfl]
      cases hnb : natToB58 (bytesToNat rest) with
      | nil => simp
      | cons c cs =>
          rw [List.takeWhile_cons_of_neg]
          · simp
          · have := htail c (by rw [hnb]; rfl)
            simp [this]
    have hdw : List.dropWhile (· == '1')
        (List.replicate z '1' ++ natToB58 (bytesToNat rest)) =
        natToB58 (bytesToNat rest) := by
      rw [List.dropWhile_append]
      rw [List.dropWhile_replicate]
      simp only [if_pos (by rfl : (('1' == '1') = true))]
      simp only [List.isEmpty_nil, if_pos rfl]
      cases hnb : natToB58 (bytesToNat rest) with
      | nil => simp
      | cons c cs =>
          rw [List.dropWhile_cons_of_neg (by
            have h1 := htail c (by rw [hnb]; rfl)
            simp [h1])]
          simp
    rw [htw, hdw, List.length_replicate, b58ToNat_natToB58]
    have hnb : natBytes (bytesToNat rest) = rest := natBytes_bytesToNat rest hrhd hrlt
    rw [hnb]
    have hzeros : List.replicate z 0 = bs.takeWhile (· == 0) := by
      rw [hz]
      exact (List.eq_replicate_of_mem (fun b hb => by
        have := List.mem_takeWhile_imp hb
        simpa using this)).symm
    rw [hzeros, hrest, List.takeWhile_append_dropWhile]
  · -- all characters lie in the alphabet
    rw [List.all_append, Bool.and_eq_true]
    constructor
    · simp only [List.all_eq_true]
      intro c hc
      have : c = '1' := List.eq_of_mem_replicate hc
      subst this
      decide
    · simp only [List.all_eq_true]
      intro c hc
      unfold natToB58 at hc
      rw [← List.map_reverse] at hc
      obtain ⟨d, hd, rfl⟩ := List.mem_map.mp hc
      exact b58Char_contains d (nat58_digits_lt (bytesToNat rest) d
        (List.mem_reverse.mp hd))

/-- Modelled from the spec: the kinds of chain entity identifiers carried by
the Identifier/Address layer. -/
inductive IdKind where
  | account
  | contract
  | oracle
  | nameHash
  | channel
  | blockHash
  | txHash
  deriving DecidableEq

/-- Modelled from the spec: the fixed kind → textual prefix registry
(`ak` accounts, `ct` contracts, `ok` oracle ids, `nm` name hashes, `ch`
channels, `kh` block hashes, `th` transaction hashes). -/
def kindPfx : IdKind → String
  | .account => "ak"
  | .contract => "ct"
  | .oracle => "ok"
  | .nameHash => "nm"
  | .channel => "ch"
  | .blockHash => "kh"
  | .txHash => "th"

/-- Modelled from the spec: the payload length constraint per kind — exact
32 bytes except the variable-length name hash. -/
def kindLen : IdKind → Option Nat
  | .nameHash => none
  | _ => some 32

/-- All registered identifier kinds. -/
def idKinds : List IdKind :=
  [.account, .contract, .oracle, .nameHash, .channel, .blockHash, .txHash]

/-- Prefix lookup in the registry. -/
def pfxKind (p : String) : Option IdKind :=
  idKinds.find? (fun k => kindPfx k == p)

/-- The 4-byte checksum of the Identifier/Address layer: the first four
bytes of the double cryptographic hash of the payload (the hash function is
an external primitive and is passed as an argument). -/
def checksum (h : List Nat → List Nat) (payload : List Nat) : List Nat :=
  (h (h payload)).take 4

/-- Modelled from the spec: `encodeIdentifier` — append the 4-byte checksum
to the payload, base58-encode, and pair the result with the kind's textual
prefix (the textual form is the prefix, an underscore, then the body). -/
def encodeId (h : List Nat → List Nat) (kind : IdKind) (payload : List Nat) :
    String × String :=
  (kindPfx kind, String.mk (base58Encode (payload ++ checksum h payload)))

/-- The full textual identifier. -/
def encodeIdText (h : List Nat → List Nat) (kind : IdKind) (payload : List Nat) :
    String :=
  (encodeId h kind payload).1 ++ "_" ++ (encodeId h kind payload).2

/-- Modelled from the spec: `decodeIdentifier` — look the prefix up in the
registry (`PrefixNotFoundError` if unknown), base58-decode the body, split
payload and checksum at the fixed 4-byte suffix, recompute the checksum
from the decoded payload and compare it byte-for-byte (failing with
`InvalidChecksumError` on any mismatch), then validate the payload length
against the kind's constraint. -/
def decodeId (h : List Nat → List Nat) (pfx body : String) :
    Except Err (IdKind × List Nat) :=
  match pfxKind pfx with
  | none => .error .pfxNotFound
  | some kind =>
      match base58Decode body.data with
      | .error e => .error e
      | .ok bytes =>
          if bytes.length < 4 then .error .decodeErr
          else
            let payload := bytes.take (bytes.length - 4)
            let chk := bytes.drop (bytes.length - 4)
            if chk ≠ checksum h payload then .error .invalidChecksum
            else
              match kindLen kind with
              | some l => if payload.length = l then .ok (kind, payload)
                  else .error .argumentLength
              | none => .ok (kind, payload)

theorem pfxKind_kindPfx : ∀ k, pfxKind (kindPfx k) = some k := by
  intro k
  cases k <;> rfl

/-- C6: checksum integrity of textual identifiers — decoding recomputes the
4-byte checksum from the decoded payload and compares it byte-for-byte,
failing with `InvalidChecksumError` on any mismatch; in particular,
corrupting any single checksum byte makes decoding fail with
`InvalidChecksumError` (for every hash function, kind and payload). -/
theorem checksum_integrity :
    (∀ (h : List Nat → List Nat) (kind : IdKind) (payload chk : List Nat),
      (∀ x ∈ payload, x < 256) → (∀ x ∈ chk, x < 256) → chk.length = 4 →
      chk ≠ checksum h payload →
      decodeId h (kindPfx kind) (String.mk (base58Encode (payload ++ chk))) =
        .error .invalidChecksum) ∧
    (∀ (h : List Nat → List Nat) (kind : IdKind) (payload : List Nat) (i b : Nat),
      (∀ x ∈ payload, x < 256) → (∀ x ∈ h (h payload), x < 256) →
      4 ≤ (h (h payload)).length → i < 4 → b < 256 →
      b ≠ (checksum h payload).getD i 0 →
      decodeId h (kindPfx kind)
        (String.mk (base58Encode (payload ++ (checksum h payload).set i b))) =
        .error .invalidChecksum) := by
  have main : ∀ (h : List Nat → List Nat) (kind : IdKind) (payload chk : List Nat),
      (∀ x ∈ payload, x < 256) → (∀ x ∈ chk, x < 256) → chk.length = 4 →
      chk ≠ checksum h payload →
      decodeId h (kindPfx kind) (String.mk (base58Encode (payload ++ chk))) =
        .error .invalidChecksum := by
    intro h kind payload chk hp hc hl hne
    unfold decodeId
    rw [pfxKind_kindPfx]
    have hall : ∀ x ∈ payload ++ chk, x < 256 := by
      intro x hx
      rcases List.mem_append.mp hx with h1 | h2
      · exact hp x h1
      · exact hc x h2
    have hdec : base58Decode (String.mk (base58Encode (payload ++ chk))).data =
        .ok (payload ++ chk) := base58_roundtrip (payload ++ chk) hall
    rw [hdec]
    dsimp only
    have hlen4 : (payload ++ chk).length - 4 = payload.length := by
      simp [hl]
    have htake : (payload ++ chk).take ((payload ++ chk).length - 4) = payload := by
      rw [hlen4]
      exact List.take_left _ _
    have hdrop : (payload ++ chk).drop ((payload ++ chk).length - 4) = chk := by
      rw [hlen4]
      exact List.drop_left _ _
    rw [if_neg (by simp [hl]), htake, hdrop, if_pos hne]
  refine ⟨main, ?_⟩
  intro h kind payload i b hp hh hh4 hi hb hbne
  have hchkl : (checksum h payload).length = 4 := by
    unfold checksum
    rw [List.length_take]
    omega
  apply main h kind payload _ hp
  · intro x hx
    rcases List.mem_or_eq_of_mem_set hx with h1 | h2
    · exact hh x (List.mem_of_mem_take h1)
    · omega
  · rw [List.length_set]
    exact hchkl
  · intro heq
    have hilen : i < ((checksum h payload).set i b).length := by
      rw [List.length_set]
      omega
    have h1 : ((checksum h payload).set i b)[i] = b :=
      List.getElem_set_self hilen
    have h3 : ((checksum h payload).set i b)[i]? = some b := by
      rw [List.getElem?_eq_getElem hilen, h1]
    rw [heq] at h3
    have h4 : (checksum h payload).getD i 0 = b := by
      rw [List.getD_eq_getElem?_getD, h3]
      rfl
    exact hbne h4.symm

/-- A concrete stand-in hash for witnesses: a rolling byte fold padded to
four bytes. -/
def toyHash (bs : List Nat) : List Nat :=
  [bs.foldl (fun a b => (a * 31 + b) % 251) 7, 1, 2, 3]

theorem checksum_integrity_witness :
    decodeId toyHash "ak"
      (String.mk (base58Encode ([5, 6] ++ (checksum toyHash [5, 6]).set 0 78))) =
      .error .invalidChecksum :=
  checksum_integrity.2 toyHash .account [5, 6] 0 78 (by decide) (by decide)
    (by decide) (by decide) (by decide) (by decide)

/-- C9: the base58 body of a textual identifier is a function of the raw
payload alone — the checksum is computed from the payload only and the kind
contributes nothing but the prefix before the underscore, so identifiers of
different kinds over the same public key share the post-underscore string
(for instance every account address `ak_X` and the oracle id `ok_X` of the
same key). -/
theorem base58_body_kind_independent :
    (∀ (h : List Nat → List Nat) (k k' : IdKind) (payload : List Nat),
      (encodeId h k payload).2 = (encodeId h k' payload).2) ∧
    (∀ (h : List Nat → List Nat) (payload : List Nat),
      (encodeId h .account payload).1 = "ak" ∧
      (encodeId h .oracle payload).1 = "ok" ∧
      encodeIdText h .account payload =
        "ak" ++ "_" ++ (encodeId h .oracle payload).2) :=
  ⟨fun _ _ _ _ => rfl, fun _ _ => ⟨rfl, rfl, rfl⟩⟩

/-- RLP sequence as a plain list. -/
def seqToList : RLPSeq → List RLPItem
  | .nil => []
  | .cons h t => h :: seqToList t

/-- A decoded trie node: a two-element Leaf/Extension node (flagged leaf or
extension, nibble path, value or child reference) or a 17-element Branch
node (16 child slots, each empty or a reference, and an optional value). -/
inductive MPTNode where
  | twoElem (isLeaf : Bool) (path : List Nat) (val : List Nat)
  | branch (children : List (Option (List Nat))) (val : Option (List Nat))
  deriving DecidableEq

/-- Byte-string element of a node, if it is one. -/
def asBytes : RLPItem → Option (List Nat)
  | .bytes bs => some bs
  | .list _ => none

/-- An empty element is an empty slot, any other a child reference. -/
def emptyToOpt (bs : List Nat) : Option (List Nat) :=
  if bs.isEmpty then none else some bs

/-- Modelled from the spec: decoding a serialized trie node — an element
count matching neither the 2-element Leaf/Extension shape nor the
17-element Branch shape fails with `UnknownNodeLengthError`, and a path
nibble outside 0-15 fails with `UnknownPathNibbleError`.  The leading path
byte flags Leaf (1) against Extension (0). -/
def decodeNode (bs : List Nat) : Except Err MPTNode :=
  match rlpDecode bs with
  | .error e => .error e
  | .ok (.bytes _) => .error .unknownNodeLength
  | .ok (.list its) =>
      match (seqToList its).mapM asBytes with
      | none => .error .decodeErr
      | some elems =>
          match elems with
          | [p, v] =>
              match p with
              | [] => .error .decodeErr
              | flag :: nibs =>
                  if flag ≤ 1 then
                    if nibs.all (· < 16) then .ok (.twoElem (flag == 1) nibs v)
                    else .error .unknownPathNibble
                  else .error .decodeErr
          | _ =>
              if elems.length = 17 then
                .ok (.branch ((elems.take 16).map emptyToOpt)
                  (emptyToOpt (elems.getD 16 [])))
              else .error .unknownNodeLength

/-- Fetch the serialized node a reference points at, from the proof's node
set keyed by claimed hash. -/
def fetchNode (nodes : List (List Nat × List Nat)) (ref : List Nat) :
    Option (List Nat) :=
  (nodes.find? (fun p => p.1 == ref)).map (fun p => p.2)

/-- Modelled from the spec: the per-node descent step of the proof
verifier.  A reference whose node is absent from the proof's node set fails
with `MissingNodeInTreeError`.  With `chk` set (the `verifyInclusion`
mode), the fetched node's hash is recomputed and compared with the
reference declared by its parent (or the root hash), failing with
`MerkleTreeHashMismatchError` on any difference.  Leaf and Extension nodes
consume their nibble path from the remaining key, Branch nodes consume one
nibble and descend into the indexed child; an empty indexed child slot, a
diverging path or an unmatched leaf mean the key is provably absent
(`none`), and a consumed key returns the node's value if any. -/
def lookupAux (chk : Bool) (h : List Nat → List Nat)
    (nodes : List (List Nat × List Nat)) :
    Nat → List Nat → List Nat → Except Err (Option (List Nat))
  | 0, _, _ => .error .decodeErr
  | fuel + 1, ref, key =>
      match fetchNode nodes ref with
      | none => .error .missingNodeInTree
      | some bs =>
          if chk && !(h bs == ref) then .error .merkleTreeHashMismatch
          else
            match decodeNode bs with
            | .error e => .error e
            | .ok (.twoElem isLeaf path val) =>
                if isLeaf then
                  if key = path then .ok (some val) else .ok none
                else
                  if path ≠ [] ∧ path = key.take path.length then
                    lookupAux chk h nodes fuel val (key.drop path.length)
                  else .ok none
            | .ok (.branch children val) =>
                match key with
                | [] => .ok val
                | nib :: rest =>
                    if nib < 16 then
                      match children.getD nib none with
                      | none => .ok none
                      | some childRef => lookupAux chk h nodes fuel childRef rest
                    else .error .unknownPathNibble

/-- Modelled from the spec: `lookup(proof, rootHash, key)` — descend from
the root by nibbles; the key length bounds the number of steps. -/
def mptLookup (h : List Nat → List Nat) (nodes : List (List Nat × List Nat))
    (root key : List Nat) : Except Err (Option (List Nat)) :=
  lookupAux false h nodes (key.length + 1) root key

/-- Modelled from the spec: `verifyInclusion(proof, rootHash, key,
expectedValue)` — the same descent, additionally recomputing every visited
node's hash against the reference its parent declared. -/
def verifyInclusion (h : List Nat → List Nat)
    (nodes : List (List Nat × List Nat)) (root key value : List Nat) :
    Except Err Bool :=
  match lookupAux true h nodes (key.length + 1) root key with
  | .ok r => .ok (r == some value)
  | .error e => .error e

/-- A two-key demo trie for witnesses: a Branch at the root with Leaf
children at nibbles 1 and 2. -/
def leaf1bytes : List Nat :=
  rlpEncode (.list (.cons (.bytes [1]) (.cons (.bytes [170]) .nil)))

/-- Second demo leaf. -/
def leaf2bytes : List Nat :=
  rlpEncode (.list (.cons (.bytes [1]) (.cons (.bytes [187]) .nil)))

/-- The demo Branch node: children at nibbles 1 and 2, no value. -/
def branchBytes : List Nat :=
  rlpEncode (.list (.cons (.bytes [])
    (.cons (.bytes (toyHash leaf1bytes))
    (.cons (.bytes (toyHash leaf2bytes))
    (.cons (.bytes []) (.cons (.bytes []) (.cons (.bytes []) (.cons (.bytes [])
    (.cons (.bytes []) (.cons (.bytes []) (.cons (.bytes []) (.cons (.bytes [])
    (.cons (.bytes []) (.cons (.bytes []) (.cons (.bytes []) (.cons (.bytes [])
    (.cons (.bytes []) (.cons (.bytes []) .nil))))))))))))))))))

/-- C2: proof soundness of `verifyInclusion` — at every visited reference
(the root hash or a child reference declared by a parent), if the fetched
node's recomputed hash does not equal that reference, verification fails
with `MerkleTreeHashMismatchError` rather than succeeding; in particular a
proof whose node bytes were substituted so that their hash no longer
matches the declared reference is rejected. -/
theorem verify_inclusion_hash_mismatch :
    (∀ (h : List Nat → List Nat) (nodes : List (List Nat × List Nat))
      (fuel : Nat) (ref key bs : List Nat),
      fetchNode nodes ref = some bs → h bs ≠ ref →
      lookupAux true h nodes (fuel + 1) ref key = .error .merkleTreeHashMismatch) ∧
    (∀ (h : List Nat → List Nat) (nodes : List (List Nat × List Nat))
      (root key value bs : List Nat),
      fetchNode nodes root = some bs → h bs ≠ root →
      verifyInclusion h nodes root key value = .error .merkleTreeHashMismatch) := by
  have step : ∀ (h : List Nat → List Nat) (nodes : List (List Nat × List Nat))
      (fuel : Nat) (ref key bs : List Nat),
      fetchNode nodes ref = some bs → h bs ≠ ref →
      lookupAux true h nodes (fuel + 1) ref key =
        .error .merkleTreeHashMismatch := by
    intro h nodes fuel ref key bs hfetch hne
    simp only [lookupAux]
    rw [hfetch]
    dsimp only
    rw [if_pos (by simp [hne])]
  refine ⟨step, ?_⟩
  intro h nodes root key value bs hfetch hne
  unfold verifyInclusion
  rw [step h nodes key.length root key bs hfetch hne]

/-- C3: absence is a result, not an error — a Branch node whose child slot
at the next key nibble is empty makes lookup return `none` (provably
absent, never a fabricated value), while a reference whose node is missing
from the proof's node set makes lookup fail with `MissingNodeInTreeError`;
the two outcomes are distinct constructors of the result type. -/
theorem lookup_absent_vs_missing :
    (∀ (h : List Nat → List Nat) (chk : Bool)
      (nodes : List (List Nat × List Nat)) (fuel : Nat) (ref key : List Nat),
      fetchNode nodes ref = none →
      lookupAux chk h nodes (fuel + 1) ref key = .error .missingNodeInTree) ∧
    (∀ (h : List Nat → List Nat) (nodes : List (List Nat × List Nat))
      (ref key : List Nat),
      fetchNode nodes ref = none →
      mptLookup h nodes ref key = .error .missingNodeInTree) ∧
    (∀ (h : List Nat → List Nat) (nodes : List (List Nat × List Nat))
      (ref : List Nat) (key : List Nat) (bs : List Nat)
      (children : List (Option (List Nat))) (val : Option (List Nat))
      (nib : Nat) (rest : List Nat),
      fetchNode nodes ref = some bs →
      decodeNode bs = .ok (.branch children val) →
      key = nib :: rest → nib < 16 → children.getD nib none = none →
      mptLookup h nodes ref key = .ok none) := by
  have step : ∀ (h : List Nat → List Nat) (chk : Bool)
      (nodes : List (List Nat × List Nat)) (fuel : Nat) (ref key : List Nat),
      fetchNode nodes ref = none →
      lookupAux chk h nodes (fuel + 1) ref key = .error .missingNodeInTree := by
    intro h chk nodes fuel ref key hfetch
    simp only [lookupAux]
    rw [hfetch]
  refine ⟨step, ?_, ?_⟩
  · intro h nodes ref key hfetch
    unfold mptLookup
    exact step h false nodes key.length ref key hfetch
  · intro h nodes ref key bs children val nib rest hfetch hdec hkey hnib hslot
    subst hkey
    unfold mptLookup
    simp only [List.length_cons, lookupAux]
    rw [hfetch]
    dsimp only
    rw [if_neg (by simp)]
    rw [hdec]
    dsimp only
    rw [if_pos hnib, hslot]

def demoNodes : List (List Nat × List Nat) :=
  [(toyHash branchBytes, branchBytes), (toyHash leaf1bytes, leaf1bytes),
   (toyHash leaf2bytes, leaf2bytes)]

/-- The root hash of the demo trie. -/
def demoRoot : List Nat := toyHash branchBytes

/-- The demo branch node's bytes with one byte substituted (same length). -/
def branchBytesAlt : List Nat := branchBytes.set 3 99

theorem verify_inclusion_hash_mismatch_witness :
    verifyInclusion toyHash [(demoRoot, branchBytesAlt)] demoRoot [1] [170] =
      .error .merkleTreeHashMismatch ∧
    branchBytesAlt.length = branchBytes.length ∧
    verifyInclusion toyHash demoNodes demoRoot [1] [170] = .ok true := by
  refine ⟨?_, by decide, rfl⟩
  exact verify_inclusion_hash_mismatch.2 toyHash [(demoRoot, branchBytesAlt)]
    demoRoot [1] [170] branchBytesAlt rfl (by decide)

theorem lookup_absent_vs_missing_witness :
    mptLookup toyHash demoNodes demoRoot [5] = .ok none ∧
    mptLookup toyHash demoNodes demoRoot [1] = .ok (some [170]) ∧
    mptLookup toyHash demoNodes demoRoot [2] = .ok (some [187]) ∧
    mptLookup toyHash demoNodes [9, 9, 9] [1] = .error .missingNodeInTree := by
  refine ⟨?_, rfl, rfl, ?_⟩
  · exact lookup_absent_vs_missing.2.2 toyHash demoNodes demoRoot [5] branchBytes
      [none, some (toyHash leaf1bytes), some (toyHash leaf2bytes), none, none,
        none, none, none, none, none, none, none, none, none, none, none]
      none 5 [] rfl rfl rfl (by decide) rfl
  · exact lookup_absent_vs_missing.2.1 toyHash demoNodes [9, 9, 9] [1] rfl
